import Mathlib

/-!
# ReStudy local data and media persistence layer: a verification development

This file gives a shallow embedding of the data/persistence core of the
ReStudy client (src/contexts/DataContext.tsx, src/services/imageStore.ts,
src/utils/helpers.ts, src/screens/HomeScreen.tsx, src/screens/ExamDetailScreen.tsx)
and proves properties of it: the reducer transitions, the blob (image) store,
the merge/replace import reconciler, the persistence projection, the import
validation and the upload dedup logic.

Modelling conventions:
* JS strings are Lean `String`s; the character-level prefix tests used by the
  source (`url.startsWith('idb://')`, `url.startsWith('data:image')`) are
  modelled at the `List Char` level.
* `crypto.randomUUID()` keys for stored images are modelled by a fresh-name
  supply: the blob store carries a counter and the n-th stored image gets the
  key `mkKey n` (an injective encoding of `n` as a string).  Uniqueness of
  freshly generated keys is the only property of `randomUUID` the source
  relies on.
* `new Date().toISOString()` values are passed to the operations as explicit
  `now` parameters.
* async/await sequencing is modelled by explicit state passing in the order
  the source awaits its effects.
-/

set_option maxHeartbeats 2000000

namespace ReStudy

/-- Characterwise test that the first list is an initial segment of the
second.  Models the JS `String.prototype.startsWith` used by the source's
`isImageKey` / `isBase64` guards. -/
def listStartsWith : List Char → List Char → Bool
  | [], _ => true
  | _ :: _, [] => false
  | p :: ps, c :: cs => p == c && listStartsWith ps cs

/-- `p.startsWith s` at the string level. -/
def strStartsWith (p s : String) : Bool := listStartsWith p.data s.data

/-- Models `isImageKey` (DataContext.tsx line 56) on a present string:
`url.startsWith('idb://')`. -/
def isRefS (s : String) : Bool := strStartsWith "idb://" s

/-- Models `isImageKey = (url?: string) => !!url && url.startsWith('idb://')`. -/
def isRefO : Option String → Bool
  | some s => isRefS s
  | none => false

/-- Models `isBase64` (DataContext.tsx line 57) on a present string:
`url.startsWith('data:image')`. -/
def isBase64S (s : String) : Bool := strStartsWith "data:image" s

/-- Models `isBase64 = (url?: string) => !!url && url.startsWith('data:image')`. -/
def isBase64O : Option String → Bool
  | some s => isBase64S s
  | none => false

/-- The key generated for the n-th `storeImage` call: an injective encoding of
the counter as a string (stands in for `crypto.randomUUID()`). -/
def mkKey (n : Nat) : String := String.mk (List.replicate n 'k')

/-- The blob-store reference string built by `storeImage`:
`'idb://' + key` (imageStore.ts). -/
def mkRefI (i : Nat) : String := "idb://" ++ mkKey i

theorem strData_append (s t : String) : (s ++ t).data = s.data ++ t.data := by
  cases s; cases t; rfl

theorem mkKey_inj {i j : Nat} (h : mkKey i = mkKey j) : i = j := by
  have hd : (mkKey i).data = (mkKey j).data := by rw [h]
  simpa [mkKey] using hd

theorem mkRefI_data (i : Nat) :
    (mkRefI i).data = "idb://".data ++ List.replicate i 'k' := by
  simp [mkRefI, strData_append, mkKey]

theorem mkRefI_inj {i j : Nat} (h : mkRefI i = mkRefI j) : i = j := by
  have hd : (mkRefI i).data = (mkRefI j).data := by rw [h]
  rw [mkRefI_data, mkRefI_data] at hd
  have := List.append_cancel_left hd
  have hlen : (List.replicate i 'k').length = (List.replicate j 'k').length := by rw [this]
  simpa using hlen

theorem listStartsWith_self_append (p r : List Char) :
    listStartsWith p (p ++ r) = true := by
  induction p with
  | nil => rfl
  | cons c cs ih => simp [listStartsWith, ih]

theorem isRefS_mkRefI (i : Nat) : isRefS (mkRefI i) = true := by
  unfold isRefS strStartsWith
  rw [mkRefI_data]
  exact listStartsWith_self_append _ _

theorem isBase64S_mkRefI (i : Nat) : isBase64S (mkRefI i) = false := by
  unfold isBase64S strStartsWith
  rw [mkRefI_data]
  rw [show "idb://".data = 'i' :: 'd' :: 'b' :: ':' :: '/' :: '/' :: [] from rfl]
  simp [listStartsWith]

theorem isRefS_of_isBase64S {s : String} (h : isBase64S s = true) :
    isRefS s = false := by
  unfold isBase64S strStartsWith at h
  unfold isRefS strStartsWith
  cases hd : s.data with
  | nil => rw [hd] at h; simp [listStartsWith] at h
  | cons c cs =>
    rw [hd] at h
    have hc : c = 'd' := by
      by_contra hne
      have : (('d' == c) = false) := by
        simp [beq_iff_eq]; exact fun hh => hne hh.symm
      simp [listStartsWith, this] at h
    subst hc
    simp [listStartsWith]

/-- Models `key.replace('idb://', '')` as used by `getImage` / `deleteImages`
(imageStore.ts): drop the scheme when the key carries it.  All keys
the source passes to these functions carry the scheme at most once, at the
front, so replace-first-occurrence coincides with dropping the scheme. -/
def stripIdb (s : String) : String :=
  if strStartsWith "idb://" s then String.mk (s.data.drop 6) else s

theorem stripIdb_mkRefI (i : Nat) : stripIdb (mkRefI i) = mkKey i := by
  have h : (mkRefI i).data = "idb://".data ++ List.replicate i 'k' := mkRefI_data i
  have hsw : strStartsWith "idb://" (mkRefI i) = true := isRefS_mkRefI i
  unfold stripIdb
  rw [hsw]
  simp only [h]
  have h6 : ("idb://".data).length = 6 := by decide
  rw [show (6 : Nat) = ("idb://".data).length from h6.symm, List.drop_left]
  rfl

/-! ## Data model (src/types.ts, plus the Tag shape used by DataContext.tsx) -/

/-- `Answer` (types.ts): `{ text?: string; imageUrls?: string[] }`. -/
structure Answer where
  text : Option String
  imageUrls : Option (List String)
deriving DecidableEq, Repr

/-- `Question` (types.ts).  Optional TS fields are `Option`s.  `difficulty`
is declared required in types.ts but the upload path
(ExamDetailScreen.tsx `handleFiles`) constructs questions without it, so it is
modelled as optional, matching the runtime objects. -/
structure Question where
  id : String
  examId : String
  type : String
  imageUrl : Option String
  text : Option String
  tags : List String
  difficulty : Option String
  status : String
  notes : Option String
  answer : Option Answer
  createdAt : String
  updatedAt : String
  lastReviewedAt : Option String
deriving DecidableEq, Repr

/-- `Exam` (types.ts). -/
structure Exam where
  id : String
  name : String
  subject : Option String
  examDate : Option String
  createdAt : String
  updatedAt : String
deriving DecidableEq, Repr

/-- `Tag` as used by DataContext.tsx: `{ id, name, color, examId }`.  `examId`
is optional: an earlier revision had exam-global tags and the reducer's
`t.examId !== examId` comparison tolerates its absence. -/
structure Tag where
  id : String
  name : String
  color : String
  examId : Option String
deriving DecidableEq, Repr

/-- `AppState` (DataContext.tsx): the three record collections. -/
structure AppState where
  exams : List Exam
  questions : List Question
  tags : List Tag
deriving DecidableEq, Repr

/-! ## Blob Store (src/services/imageStore.ts)

IndexedDB is modelled as an association list from bare keys to payloads plus
the fresh-key counter.  `store.put(base64, key)` replaces an existing entry
with the same key or appends a new one; `store.delete(key)` removes the
entry; `store.get(key)` looks the key up. -/

structure BlobStore where
  entries : List (String × String)
  next : Nat
deriving DecidableEq, Repr

def lookupE (es : List (String × String)) (k : String) : Option String :=
  (es.find? (fun p => p.1 == k)).map (fun p => p.2)

/-- IDB `store.put(v, k)`: replace-or-append. -/
def putE (es : List (String × String)) (k v : String) : List (String × String) :=
  if es.any (fun p => p.1 == k) then
    es.map (fun p => if p.1 == k then (k, v) else p)
  else es ++ [(k, v)]

/-- IDB `store.delete(k)`: remove the entry with that key. -/
def eraseE (es : List (String × String)) (k : String) : List (String × String) :=
  es.filter (fun p => !(p.1 == k))

/-- `storeImage(base64)` (imageStore.ts): generate a fresh key, put the
payload under it, resolve with the tagged reference string
`'idb://' + key`. -/
def storeImage (bs : BlobStore) (payload : String) : String × BlobStore :=
  ("idb://" ++ mkKey bs.next, ⟨putE bs.entries (mkKey bs.next) payload, bs.next + 1⟩)

/-- `getImage(key)` (imageStore.ts): strip the scheme, look up. -/
def getImage (bs : BlobStore) (key : String) : Option String :=
  lookupE bs.entries (stripIdb key)

/-- `deleteImages(keys)` (imageStore.ts): strip each key and delete it. -/
def deleteImages (bs : BlobStore) (keys : List String) : BlobStore :=
  ⟨keys.foldl (fun es k => eraseE es (stripIdb k)) bs.entries, bs.next⟩

/-- Store well-formedness: every stored key was generated by the fresh-key
supply (holds for every store the app ever builds). -/
def BlobStore.WF (bs : BlobStore) : Prop :=
  ∀ p ∈ bs.entries, ∃ i, i < bs.next ∧ p.1 = mkKey i

def emptyBS : BlobStore := ⟨[], 0⟩

theorem emptyBS_WF : emptyBS.WF := by
  intro p hp
  simp [emptyBS] at hp

theorem storeImage_fst (bs : BlobStore) (v : String) :
    (storeImage bs v).1 = mkRefI bs.next := by
  cases bs
  rfl

theorem storeImage_next (bs : BlobStore) (v : String) :
    (storeImage bs v).2.next = bs.next + 1 := rfl

theorem WF_entry_ne_next {bs : BlobStore} (h : bs.WF) :
    ∀ p ∈ bs.entries, p.1 ≠ mkKey bs.next := by
  intro p hp hcontra
  obtain ⟨i, hi, hk⟩ := h p hp
  rw [hk] at hcontra
  exact absurd (mkKey_inj hcontra) (Nat.ne_of_lt hi)

theorem putE_fresh {es : List (String × String)} {k v : String}
    (h : ∀ p ∈ es, p.1 ≠ k) : putE es k v = es ++ [(k, v)] := by
  unfold putE
  have : es.any (fun p => p.1 == k) = false := by
    simp only [List.any_eq_false]
    intro p hp
    simp [beq_iff_eq]
    exact h p hp
  rw [this]
  simp

theorem lookupE_append (es fs : List (String × String)) (k : String) :
    lookupE (es ++ fs) k = (lookupE es k).or (lookupE fs k) := by
  unfold lookupE
  rw [List.find?_append]
  cases List.find? (fun p => p.1 == k) es <;> simp

theorem storeImage_get_self {bs : BlobStore} (h : bs.WF) (v : String) :
    lookupE (storeImage bs v).2.entries (mkKey bs.next) = some v := by
  show lookupE (putE bs.entries (mkKey bs.next) v) (mkKey bs.next) = some v
  rw [putE_fresh (WF_entry_ne_next h)]
  rw [lookupE_append]
  have h1 : lookupE bs.entries (mkKey bs.next) = none := by
    unfold lookupE
    rw [List.find?_eq_none.mpr]
    · rfl
    · intro p hp
      simp [beq_iff_eq]
      exact WF_entry_ne_next h p hp
  rw [h1]
  simp [lookupE]

theorem storeImage_lookup_ne {bs : BlobStore} (h : bs.WF) (v : String)
    {k : String} (hk : k ≠ mkKey bs.next) :
    lookupE (storeImage bs v).2.entries k = lookupE bs.entries k := by
  show lookupE (putE bs.entries (mkKey bs.next) v) k = lookupE bs.entries k
  rw [putE_fresh (WF_entry_ne_next h)]
  rw [lookupE_append]
  have h2 : lookupE [(mkKey bs.next, v)] k = none := by
    unfold lookupE
    have hb : ((mkKey bs.next : String) == k) = false := by
      simp [beq_iff_eq]
      exact fun hc => hk hc.symm
    simp [List.find?, hb]
  rw [h2]
  cases lookupE bs.entries k <;> simp

theorem storeImage_WF {bs : BlobStore} (h : bs.WF) (v : String) :
    (storeImage bs v).2.WF := by
  intro p hp
  show ∃ i, i < bs.next + 1 ∧ p.1 = mkKey i
  rw [show (storeImage bs v).2.entries = putE bs.entries (mkKey bs.next) v from rfl,
    putE_fresh (WF_entry_ne_next h)] at hp
  rcases List.mem_append.mp hp with h1 | h2
  · obtain ⟨i, hi, hk⟩ := h p h1
    exact ⟨i, Nat.lt_succ_of_lt hi, hk⟩
  · simp at h2
    exact ⟨bs.next, Nat.lt_succ_self _, by rw [h2]⟩

theorem lookupE_eraseE_self (es : List (String × String)) (k : String) :
    lookupE (eraseE es k) k = none := by
  unfold lookupE eraseE
  rw [List.find?_eq_none.mpr]
  · rfl
  · intro p hp
    have := List.of_mem_filter hp
    simpa using this

theorem lookupE_eraseE_ne (es : List (String × String)) {k k' : String}
    (h : k' ≠ k) : lookupE (eraseE es k) k' = lookupE es k' := by
  unfold lookupE eraseE
  congr 1
  induction es with
  | nil => rfl
  | cons p ps ih =>
    by_cases hp : p.1 = k
    · have hb : (!(p.1 == k)) = false := by simp [hp]
      have hc : (p.1 == k') = false := by
        simp [beq_iff_eq, hp]
        intro hcontra
        exact absurd hcontra.symm h
      simp only [List.filter, hb, List.find?, hc]
      exact ih
    · have hb : (!(p.1 == k)) = true := by simp [hp]
      simp only [List.filter, hb, List.find?]
      cases hc : (p.1 == k') with
      | true => rfl
      | false => exact ih

theorem eraseE_subset (es : List (String × String)) (k : String) :
    ∀ p ∈ eraseE es k, p ∈ es := by
  intro p hp
  exact List.mem_of_mem_filter hp

theorem deleteImages_next (bs : BlobStore) (keys : List String) :
    (deleteImages bs keys).next = bs.next := rfl

theorem deleteImages_entries_subset (bs : BlobStore) (keys : List String) :
    ∀ p ∈ (deleteImages bs keys).entries, p ∈ bs.entries := by
  show ∀ p ∈ keys.foldl (fun es k => eraseE es (stripIdb k)) bs.entries, p ∈ bs.entries
  induction keys generalizing bs with
  | nil => intro p hp; exact hp
  | cons k ks ih =>
    intro p hp
    simp only [List.foldl_cons] at hp
    have := ih ⟨eraseE bs.entries (stripIdb k), bs.next⟩ p hp
    exact eraseE_subset _ _ p this

theorem deleteImages_WF {bs : BlobStore} (h : bs.WF) (keys : List String) :
    (deleteImages bs keys).WF := by
  intro p hp
  exact h p (deleteImages_entries_subset bs keys p hp)

theorem lookupE_foldl_erase_preserve (keys : List String)
    (es : List (String × String)) {k : String}
    (h : ∀ u ∈ keys, stripIdb u ≠ k) :
    lookupE (keys.foldl (fun es u => eraseE es (stripIdb u)) es) k = lookupE es k := by
  induction keys generalizing es with
  | nil => rfl
  | cons u us ih =>
    simp only [List.foldl_cons]
    rw [ih _ (fun w hw => h w (List.mem_cons_of_mem _ hw))]
    exact lookupE_eraseE_ne es (fun hc => h u (List.mem_cons_self _ _) hc.symm)

theorem lookupE_foldl_erase_none (keys : List String)
    (es : List (String × String)) {k : String}
    (h : lookupE es k = none) :
    lookupE (keys.foldl (fun es u => eraseE es (stripIdb u)) es) k = none := by
  induction keys generalizing es with
  | nil => exact h
  | cons u us ih =>
    simp only [List.foldl_cons]
    apply ih
    by_cases hc : stripIdb u = k
    · rw [hc]; exact lookupE_eraseE_self es k
    · rw [lookupE_eraseE_ne es (fun hx => hc hx.symm)]; exact h

theorem deleteImages_lookup_mem (bs : BlobStore) (keys : List String)
    {u : String} (hu : u ∈ keys) :
    lookupE (deleteImages bs keys).entries (stripIdb u) = none := by
  show lookupE (keys.foldl (fun es k => eraseE es (stripIdb k)) bs.entries) (stripIdb u) = none
  induction keys generalizing bs with
  | nil => cases hu
  | cons k ks ih =>
    simp only [List.foldl_cons]
    rcases List.mem_cons.mp hu with h1 | h2
    · subst h1
      by_cases hmem : u ∈ ks
      · exact ih ⟨eraseE bs.entries (stripIdb u), bs.next⟩ hmem
      · apply lookupE_foldl_erase_none
        exact lookupE_eraseE_self _ _
    · exact ih ⟨eraseE bs.entries (stripIdb k), bs.next⟩ h2

theorem deleteImages_lookup_notmem (bs : BlobStore) (keys : List String)
    {k : String} (h : ∀ u ∈ keys, stripIdb u ≠ k) :
    lookupE (deleteImages bs keys).entries k = lookupE bs.entries k :=
  lookupE_foldl_erase_preserve keys bs.entries h

theorem getImage_mkRefI (bs : BlobStore) (i : Nat) :
    getImage bs (mkRefI i) = lookupE bs.entries (mkKey i) := by
  unfold getImage
  rw [stripIdb_mkRefI]

/-! ## JS `Map` model

`new Map(entries)` / `map.set` / `map.get` / `Array.from(map.values())`, as
used by the MERGE_DATA reducer case.  A `Map` is an association list with
pairwise-distinct keys; `set` on an existing key overwrites in place keeping
the key's insertion position, `set` on a new key appends. -/

def mapSet {α : Type} (m : List (String × α)) (k : String) (v : α) :
    List (String × α) :=
  if m.any (fun p => p.1 == k) then
    m.map (fun p => if p.1 == k then (k, v) else p)
  else m ++ [(k, v)]

def mapGet {α : Type} (m : List (String × α)) (k : String) : Option α :=
  (m.find? (fun p => p.1 == k)).map (fun p => p.2)

def mapFromList {α : Type} (l : List (String × α)) : List (String × α) :=
  l.foldl (fun m p => mapSet m p.1 p.2) []

def mapValues {α : Type} (m : List (String × α)) : List α :=
  m.map (fun p => p.2)

/-- The fold the MERGE_DATA case runs over one incoming collection:
`incoming.forEach(x => map.set(x.id, { ...(map.get(x.id) || {}), ...x }))`.
`comb` is the body `{ ...(existing || {}), ...x }`. -/
def mergeFold {α : Type} (getId : α → String) (comb : Option α → α → α)
    (m : List (String × α)) (inc : List α) : List (String × α) :=
  inc.foldl (fun m x => mapSet m (getId x) (comb (mapGet m (getId x)) x)) m

/-- One collection of the MERGE_DATA case: build the map from the existing
records, fold the incoming records over it, read the values back off. -/
def mergeColl {α : Type} (getId : α → String) (comb : Option α → α → α)
    (old inc : List α) : List α :=
  mapValues (mergeFold getId comb (mapFromList (old.map (fun x => (getId x, x)))) inc)

/-! ## Object spread on typed records

`{ ...old, ...inc }` for records that follow the TS types: required fields
are always present so the incoming value wins; optional fields win only when
present (`Option.or inc.f old.f`). -/

def spreadExam (old inc : Exam) : Exam :=
  { id := inc.id, name := inc.name,
    subject := inc.subject.or old.subject,
    examDate := inc.examDate.or old.examDate,
    createdAt := inc.createdAt, updatedAt := inc.updatedAt }

def spreadQuestion (old inc : Question) : Question :=
  { id := inc.id, examId := inc.examId, type := inc.type,
    imageUrl := inc.imageUrl.or old.imageUrl,
    text := inc.text.or old.text,
    tags := inc.tags,
    difficulty := inc.difficulty.or old.difficulty,
    status := inc.status,
    notes := inc.notes.or old.notes,
    answer := inc.answer.or old.answer,
    createdAt := inc.createdAt, updatedAt := inc.updatedAt,
    lastReviewedAt := inc.lastReviewedAt.or old.lastReviewedAt }

def spreadTag (old inc : Tag) : Tag :=
  { id := inc.id, name := inc.name, color := inc.color,
    examId := inc.examId.or old.examId }

/-- `{ ...(existing || {}), ...x }`: when no existing record holds the id the
spread over the empty object is just the incoming record. -/
def combOf {α : Type} (spread : α → α → α) : Option α → α → α :=
  fun o x => match o with
  | some v => spread v x
  | none => x

/-! ## Partial updates

`Partial<Omit<...>>` payloads.  A field is `some` when the key is present.
(`updateQuestion` deep-copies its payload through JSON, which drops
explicitly-undefined keys, so present-with-undefined does not occur.) -/

structure ExamPatch where
  name : Option String
  subject : Option String
  examDate : Option String
deriving DecidableEq, Repr

/-- `{ ...e, ...data, updatedAt: now }` (UPDATE_EXAM). -/
def applyExamPatch (e : Exam) (p : ExamPatch) (now : String) : Exam :=
  { id := e.id, name := p.name.getD e.name,
    subject := p.subject.or e.subject,
    examDate := p.examDate.or e.examDate,
    createdAt := e.createdAt, updatedAt := now }

structure QuestionPatch where
  examId : Option String
  type : Option String
  imageUrl : Option String
  text : Option String
  tags : Option (List String)
  difficulty : Option String
  status : Option String
  notes : Option String
  answer : Option Answer
  lastReviewedAt : Option String
deriving DecidableEq, Repr

/-- `{ ...q, ...data, updatedAt: now }` (UPDATE_QUESTION / UPDATE_QUESTIONS). -/
def applyQuestionPatch (q : Question) (p : QuestionPatch) (now : String) : Question :=
  { id := q.id,
    examId := p.examId.getD q.examId,
    type := p.type.getD q.type,
    imageUrl := p.imageUrl.or q.imageUrl,
    text := p.text.or q.text,
    tags := p.tags.getD q.tags,
    difficulty := p.difficulty.or q.difficulty,
    status := p.status.getD q.status,
    notes := p.notes.or q.notes,
    answer := p.answer.or q.answer,
    createdAt := q.createdAt, updatedAt := now,
    lastReviewedAt := p.lastReviewedAt.or q.lastReviewedAt }

/-! ## The reducer (DataContext.tsx `appReducer`) -/

/-- The discriminated action union.  Timestamps the source takes from
`new Date().toISOString()` are explicit `now` parameters. -/
inductive Action where
  | addExam (payload : Exam)
  | updateExam (examId : String) (data : ExamPatch) (now : String)
  | deleteExam (examId : String)
  | addQuestions (payload : List Question)
  | updateQuestion (questionId : String) (data : QuestionPatch) (now : String)
  | deleteQuestion (questionId : String)
  | deleteQuestions (questionIds : List String)
  | updateQuestions (questionIds : List String) (data : QuestionPatch) (now : String)
  | replaceData (payload : AppState)
  | mergeData (payload : AppState)
  | addTag (payload : Tag)
  | updateTag (payload : Tag)
  | deleteTag (tagId : String)
  | addTagToQuestions (questionIds : List String) (tagId : String) (now : String)
  | removeTagFromQuestions (questionIds : List String) (tagId : String) (now : String)
deriving DecidableEq

/-- `appReducer` (DataContext.tsx lines 60-178), case by case.  JS `Set`
membership (`idSet.has`) is list membership on the id list the set was built
from. -/
def appReducer (state : AppState) : Action → AppState
  | .addExam e => { state with exams := state.exams ++ [e] }
  | .updateExam examId data now =>
      { state with exams := state.exams.map (fun e =>
          if e.id == examId then applyExamPatch e data now else e) }
  | .deleteExam examId =>
      { state with
        exams := state.exams.filter (fun e => !(e.id == examId)),
        questions := state.questions.filter (fun q => !(q.examId == examId)),
        tags := state.tags.filter (fun t => !(t.examId == some examId)) }
  | .addQuestions qs => { state with questions := state.questions ++ qs }
  | .updateQuestion qid data now =>
      { state with questions := state.questions.map (fun q =>
          if q.id == qid then applyQuestionPatch q data now else q) }
  | .deleteQuestion qid =>
      { state with questions := state.questions.filter (fun q => !(q.id == qid)) }
  | .deleteQuestions qids =>
      { state with questions := state.questions.filter (fun q => !(qids.contains q.id)) }
  | .updateQuestions qids data now =>
      { state with questions := state.questions.map (fun q =>
          if qids.contains q.id then applyQuestionPatch q data now else q) }
  | .replaceData payload => payload
  | .mergeData payload =>
      { exams := mergeColl Exam.id (combOf spreadExam) state.exams payload.exams,
        questions := mergeColl Question.id (combOf spreadQuestion) state.questions payload.questions,
        tags := mergeColl Tag.id (combOf spreadTag) state.tags payload.tags }
  | .addTag t => { state with tags := state.tags ++ [t] }
  | .updateTag t =>
      { state with tags := state.tags.map (fun x => if x.id == t.id then t else x) }
  | .deleteTag tagId =>
      { state with
        tags := state.tags.filter (fun t => !(t.id == tagId)),
        questions := state.questions.map (fun q =>
          { q with tags := q.tags.filter (fun tid => !(tid == tagId)) }) }
  | .addTagToQuestions qids tagId now =>
      { state with questions := state.questions.map (fun q =>
          if qids.contains q.id && !(q.tags.contains tagId) then
            { q with tags := q.tags ++ [tagId], updatedAt := now }
          else q) }
  | .removeTagFromQuestions qids tagId now =>
      { state with questions := state.questions.map (fun q =>
          if qids.contains q.id && q.tags.contains tagId then
            { q with tags := q.tags.filter (fun tid => !(tid == tagId)), updatedAt := now }
          else q) }

/-! ## Provider-level operations (DataContext.tsx action creators)

These combine blob-store effects with a dispatch.  Awaited effects happen in
source order; the dispatched state change comes last. -/

/-- The answer image list `q.answer?.imageUrls || []`. -/
def answerUrls (q : Question) : List String :=
  match q.answer with
  | some a => a.imageUrls.getD []
  | none => []

/-- The url array `[q.imageUrl, ...(q.answer?.imageUrls || [])]`; the
possibly-undefined first entry is represented by an optional singleton (the
subsequent `filter(isImageKey)` removes `undefined` either way). -/
def questionUrls (q : Question) : List String :=
  (match q.imageUrl with | some u => [u] | none => []) ++ answerUrls q

/-- `[q.imageUrl, ...(q.answer?.imageUrls || [])].filter(isImageKey)`. -/
def questionImageKeys (q : Question) : List String :=
  (questionUrls q).filter isRefS

/-- All blob references held by the questions of a state. -/
def stateImageKeys (st : AppState) : List String :=
  st.questions.flatMap questionImageKeys

/-- `Omit<Question, 'id' | 'createdAt' | 'updatedAt'>`: the payload shape
`addQuestions` receives. -/
structure QuestionData where
  examId : String
  type : String
  imageUrl : Option String
  text : Option String
  tags : List String
  difficulty : Option String
  status : String
  notes : Option String
  answer : Option Answer
  lastReviewedAt : Option String
deriving DecidableEq, Repr

/-- The per-question body of `addQuestions`: copy, and if the imageUrl is an
inline data URI, store it and keep the returned reference. -/
def processQD (bs : BlobStore) (q : QuestionData) : QuestionData × BlobStore :=
  match q.imageUrl with
  | some u =>
    if isBase64S u then
      let r := storeImage bs u
      ({ q with imageUrl := some r.1 }, r.2)
    else (q, bs)
  | none => (q, bs)

def processQDs (bs : BlobStore) : List QuestionData → List QuestionData × BlobStore
  | [] => ([], bs)
  | q :: qs =>
    let r := processQD bs q
    let rs := processQDs r.2 qs
    (r.1 :: rs.1, rs.2)

/-- `{ id: crypto.randomUUID(), createdAt: now, updatedAt: now, ...q }`. -/
def mkQuestion (idv now : String) (q : QuestionData) : Question :=
  { id := idv, examId := q.examId, type := q.type, imageUrl := q.imageUrl,
    text := q.text, tags := q.tags, difficulty := q.difficulty,
    status := q.status, notes := q.notes, answer := q.answer,
    createdAt := now, updatedAt := now, lastReviewedAt := q.lastReviewedAt }

/-- `addQuestions` (DataContext.tsx lines 249-270): process the payload
(migrating inline question images into the blob store), build the new
`Question`s with generated ids and timestamps, dispatch ADD_QUESTIONS when
the batch is non-empty, and return the created records. -/
def addQuestionsOp (st : AppState) (bs : BlobStore) (inputs : List QuestionData)
    (ids : List String) (now : String) : (AppState × BlobStore) × List Question :=
  let r := processQDs bs inputs
  let newQuestions := List.zipWith (fun idv q => mkQuestion idv now q) ids r.1
  ((if newQuestions.length > 0 then appReducer st (.addQuestions newQuestions) else st,
    r.2), newQuestions)

/-- `newImageUrls.map(url => isBase64(url) ? storeImage(url) : url)`,
awaited left to right. -/
def storeList (bs : BlobStore) : List String → List String × BlobStore
  | [] => ([], bs)
  | u :: us =>
    if isBase64S u then
      let r := storeImage bs u
      let rs := storeList r.2 us
      (r.1 :: rs.1, rs.2)
    else
      let rs := storeList bs us
      (u :: rs.1, rs.2)

/-- `updateQuestion` (DataContext.tsx lines 272-302): no-op when the id is
stale; otherwise, when the payload carries `answer.imageUrls`, store the
inline entries, delete the old answer references that were dropped, and
dispatch with the rewritten payload.  (The JSON deep copy of `data` is the
identity in this value-level model.) -/
def updateQuestionOp (st : AppState) (bs : BlobStore) (qid : String)
    (data : QuestionPatch) (now : String) : AppState × BlobStore :=
  match st.questions.find? (fun q => q.id == qid) with
  | none => (st, bs)
  | some questionToUpdate =>
    match data.answer with
    | some ans =>
      match ans.imageUrls with
      | some newImageUrls =>
        let oldImageUrls := (match questionToUpdate.answer with
          | some a => a.imageUrls.getD []
          | none => []).filter isRefS
        let r := storeList bs newImageUrls
        let data1 := { data with answer := some { ans with imageUrls := some r.1 } }
        let imageKeysToDelete := oldImageUrls.filter (fun k => !(r.1.contains k))
        let bs2 := if imageKeysToDelete.length > 0 then deleteImages r.2 imageKeysToDelete
          else r.2
        (appReducer st (.updateQuestion qid data1 now), bs2)
      | none => (appReducer st (.updateQuestion qid data now), bs)
    | none => (appReducer st (.updateQuestion qid data now), bs)

/-- `deleteQuestion` (DataContext.tsx lines 304-310). -/
def deleteQuestionOp (st : AppState) (bs : BlobStore) (qid : String) :
    AppState × BlobStore :=
  match st.questions.find? (fun q => q.id == qid) with
  | none => (st, bs)
  | some questionToDelete =>
    let imageKeysToDelete := (questionUrls questionToDelete).filter isRefS
    let bs1 := if imageKeysToDelete.length > 0 then deleteImages bs imageKeysToDelete else bs
    (appReducer st (.deleteQuestion qid), bs1)

/-- `deleteQuestions` (DataContext.tsx lines 312-318). -/
def deleteQuestionsOp (st : AppState) (bs : BlobStore) (qids : List String) :
    AppState × BlobStore :=
  let questionsToDelete := st.questions.filter (fun q => qids.contains q.id)
  let imageKeysToDelete := (questionsToDelete.flatMap questionUrls).filter isRefS
  let bs1 := if imageKeysToDelete.length > 0 then deleteImages bs imageKeysToDelete else bs
  (appReducer st (.deleteQuestions qids), bs1)

/-- `deleteExam` (DataContext.tsx lines 242-247). -/
def deleteExamOp (st : AppState) (bs : BlobStore) (examId : String) :
    AppState × BlobStore :=
  let questionsToDelete := st.questions.filter (fun q => q.examId == examId)
  let imageKeysToDelete := (questionsToDelete.flatMap questionUrls).filter isRefS
  let bs1 := if imageKeysToDelete.length > 0 then deleteImages bs imageKeysToDelete else bs
  (appReducer st (.deleteExam examId), bs1)

/-- The per-question body of `processImportedQuestions` (DataContext.tsx
lines 324-339), value level: migrate an inline question image, then
migrate the inline answer images. -/
def processImportedQ (bs : BlobStore) (q : Question) : Question × BlobStore :=
  let r1 := match q.imageUrl with
    | some u =>
      if isBase64S u then
        let r := storeImage bs u
        (({ q with imageUrl := some r.1 } : Question), r.2)
      else (q, bs)
    | none => (q, bs)
  match r1.1.answer with
  | some a =>
    match a.imageUrls with
    | some us =>
      let r2 := storeList r1.2 us
      ({ r1.1 with answer := some { a with imageUrls := some r2.1 } }, r2.2)
    | none => r1
  | none => r1

def processImportedQs (bs : BlobStore) : List Question → List Question × BlobStore
  | [] => ([], bs)
  | q :: qs =>
    let r := processImportedQ bs q
    let rs := processImportedQs r.2 qs
    (r.1 :: rs.1, rs.2)

/-- `replaceData` (DataContext.tsx lines 341-349): delete every blob
reference held by the current questions, migrate the imported questions'
inline images, dispatch REPLACE_DATA. -/
def replaceDataOp (st : AppState) (bs : BlobStore) (data : AppState) :
    AppState × BlobStore :=
  let allImageKeys := (st.questions.flatMap questionUrls).filter isRefS
  let bs1 := if allImageKeys.length > 0 then deleteImages bs allImageKeys else bs
  let r := processImportedQs bs1 data.questions
  (appReducer st (.replaceData { exams := data.exams, questions := r.1, tags := data.tags }),
   r.2)

/-- `mergeData` (DataContext.tsx lines 351-354): migrate the imported
questions' inline images, dispatch MERGE_DATA. -/
def mergeDataOp (st : AppState) (bs : BlobStore) (data : AppState) :
    AppState × BlobStore :=
  let r := processImportedQs bs data.questions
  (appReducer st (.mergeData { exams := data.exams, questions := r.1, tags := data.tags }),
   r.2)

/-! ## Persistence Bridge (DataProvider persistence effect,
DataContext.tsx lines 205-225) -/

/-- The metadata projection of one question written to durable storage:
`({ imageUrl, answer, ...rest }) => ({ ...rest, imageUrl: isImageKey(imageUrl)
? imageUrl : undefined, answer: answer ? { ...answer, imageUrls:
answer.imageUrls?.filter(isImageKey) } : undefined })`. -/
def toMeta (q : Question) : Question :=
  { q with
    imageUrl := if isRefO q.imageUrl then q.imageUrl else none,
    answer := match q.answer with
      | some a => some { a with imageUrls := a.imageUrls.map (fun us => us.filter isRefS) }
      | none => none }

/-- The three fixed localStorage keys (`exams`, `questions_meta`, `tags`). -/
structure LocalStorageState where
  exams : Option (List Exam)
  questionsMeta : Option (List Question)
  tags : Option (List Tag)
deriving DecidableEq, Repr

/-- The persistence effect: on a state change, write the serialized
projections under the fixed keys.  `JSON.stringify` is modelled as storing
the structured value (serialization is injective on these records).  The
effect only reads the reducer state, which is returned unchanged. -/
def persistEffect (st : AppState) (_ls : LocalStorageState) :
    AppState × LocalStorageState :=
  (st,
   { exams := some st.exams,
     questionsMeta := some (st.questions.map toMeta),
     tags := some st.tags })

/-! ## Import validation (HomeScreen.tsx `handleFileImport`, lines 133-168) -/

/-- The result of `JSON.parse` on an import file, to the depth the validator
inspects: each collection member is either a present array (`some`) or
missing / not an array (`none`). -/
structure ParsedData where
  exams : Option (List Exam)
  questions : Option (List Question)
  tags : Option (List Tag)
deriving DecidableEq, Repr

/-- A parsed whole-dataset document: `parsedJson.data` may be missing. -/
structure ParsedDoc where
  data : Option ParsedData
deriving DecidableEq, Repr

/-- The validation in `handleFileImport`: reject with the descriptive error
unless `data`, `data.exams` and `data.questions` are present (the latter two
as arrays); a missing `tags` defaults to the empty collection
(`appState.tags || []`). -/
def validateImport (doc : ParsedDoc) : Except String AppState :=
  match doc.data with
  | none => .error "Invalid backup file format."
  | some d =>
    match d.exams, d.questions with
    | some es, some qs => .ok { exams := es, questions := qs, tags := d.tags.getD [] }
    | some _, none => .error "Invalid backup file format."
    | none, _ => .error "Invalid backup file format."

/-- Validation composed with the Merge commit: on validation failure the
error is surfaced and no successor state/blob store exists. -/
def importMerge (doc : ParsedDoc) (st : AppState) (bs : BlobStore) :
    Except String (AppState × BlobStore) :=
  match validateImport doc with
  | .error e => .error e
  | .ok d => .ok (mergeDataOp st bs d)

/-- Validation composed with the Overwrite commit. -/
def importReplace (doc : ParsedDoc) (st : AppState) (bs : BlobStore) :
    Except String (AppState × BlobStore) :=
  match validateImport doc with
  | .error e => .error e
  | .ok d => .ok (replaceDataOp st bs d)

/-! ## Hashing / dedup (utils/helpers.ts `calculateHash`,
ExamDetailScreen.tsx `handleFiles`) -/

/-- An uploaded file: MIME type plus raw bytes. -/
structure UFile where
  type : String
  bytes : List Nat
deriving DecidableEq, Repr

/-- `.padStart(2, '0')`. -/
def padStart2 (s : String) : String :=
  if s.length ≥ 2 then s else String.mk (List.replicate (2 - s.length) '0' ++ s.data)

/-- `calculateHash` (helpers.ts lines 16-21): SHA-256 the file's bytes, then
hex-encode byte by byte with `b.toString(16).padStart(2, '0')` and join.
The browser primitive `crypto.subtle.digest('SHA-256', ...)` enters the model
as the `sha` parameter, a pure function of the bytes (32-byte output). -/
def calculateHash (sha : List Nat → List Nat) (f : UFile) : String :=
  String.join ((sha f.bytes).map (fun b => padStart2 (String.mk (Nat.toDigits 16 b))))

/-- The digests-in-use set
`new Set(questions.filter(q => q.type === 'image' && q.notes).map(q => q.notes))`;
JS truthiness of `q.notes` excludes the empty string. -/
def existingHashes (qs : List Question) : List String :=
  (qs.filter (fun q => q.type == "image" &&
    (match q.notes with | some s => !(s == "") | none => false))).filterMap
    (fun q => q.notes)

/-- The `for (const file of files)` loop of `handleFiles` (ExamDetailScreen.tsx
lines 99-136): non-image files are skipped silently; a file whose digest is
already in the set is skipped and counted; otherwise the digest is added to
the set and the new question payload is built (`fileToBase64` enters as the
`toDataUrl` parameter).  Returns `(newQuestionsData, skippedCount)`. -/
def handleFilesLoop (sha : List Nat → List Nat) (toDataUrl : UFile → String)
    (examId : String) (hashes : List String) :
    List UFile → List QuestionData × Nat
  | [] => ([], 0)
  | f :: rest =>
    if !(strStartsWith "image/" f.type) then
      handleFilesLoop sha toDataUrl examId hashes rest
    else
      let h := calculateHash sha f
      if hashes.contains h then
        let r := handleFilesLoop sha toDataUrl examId hashes rest
        (r.1, r.2 + 1)
      else
        let q : QuestionData :=
          { examId := examId, type := "image", imageUrl := some (toDataUrl f),
            text := none, tags := [], difficulty := none, status := "new",
            notes := some h, answer := none, lastReviewedAt := none }
        let r := handleFilesLoop sha toDataUrl examId (h :: hashes) rest
        (q :: r.1, r.2)

/-- `handleFiles` seeded with the digests of the existing image questions. -/
def handleFiles (sha : List Nat → List Nat) (toDataUrl : UFile → String)
    (questions : List Question) (examId : String) (files : List UFile) :
    List QuestionData × Nat :=
  handleFilesLoop sha toDataUrl examId (existingHashes questions) files

/-! ## Aliasing model of `processImportedQuestions`

`processImportedQuestions` copies each imported question shallowly
(`const newQ = { ...q }`), so `newQ.answer` and the caller's `q.answer` are
the same object, and `newQ.answer.imageUrls = await ...` mutates it in
place.  To state this, answer objects live in an explicit heap and questions
hold a heap index; the caller's snapshot keeps its own question list, whose
entries still point at the same (mutated) heap cells. -/

/-- An imported question with its answer held by reference; fields not
involved in blob extraction are copied by value and omitted. -/
structure QuestionH where
  id : String
  examId : String
  type : String
  imageUrl : Option String
  answer : Option Nat
deriving DecidableEq, Repr

/-- One iteration of `processImportedQuestions` at the heap level: the
shallow copy shares the answer cell, and the `imageUrls` rewrite is an
in-place update of that cell. -/
def processImportedQH (bs : BlobStore) (heap : List Answer) (q : QuestionH) :
    QuestionH × List Answer × BlobStore :=
  let r1 := match q.imageUrl with
    | some u =>
      if isBase64S u then
        let r := storeImage bs u
        (({ q with imageUrl := some r.1 } : QuestionH), r.2)
      else (q, bs)
    | none => (q, bs)
  match r1.1.answer with
  | some i =>
    match heap[i]? with
    | some a =>
      match a.imageUrls with
      | some us =>
        let r2 := storeList r1.2 us
        (r1.1, heap.set i { a with imageUrls := some r2.1 }, r2.2)
      | none => (r1.1, heap, r1.2)
    | none => (r1.1, heap, r1.2)
  | none => (r1.1, heap, r1.2)

/-- `processImportedQuestions` at the heap level (the blob-extraction step
`mergeData` and `replaceData` run on the caller's snapshot before
dispatching). -/
def processImportedQsH (bs : BlobStore) (heap : List Answer) :
    List QuestionH → List QuestionH × List Answer × BlobStore
  | [] => ([], heap, bs)
  | q :: qs =>
    let r := processImportedQH bs heap q
    let rs := processImportedQsH r.2.2 r.2.1 qs
    (r.1 :: rs.1, rs.2)

/-! ## General list helpers -/

theorem map_self_of_forall {α : Type} {l : List α} {f : α → α}
    (h : ∀ x ∈ l, f x = x) : l.map f = l := by
  rw [List.map_congr_left h]
  exact List.map_id l

/-! ## Claim theorems: reducer-level properties -/

/-- C2: for every state and exam id, `deleteExam` removes the exam with that
id, every question with that `examId` and every tag with that `examId`,
leaves all other exams/questions/tags unchanged (they stay in the result
exactly when they were there before and are not targeted), and issues a blob
store deletion for every blob reference (question imageUrl or answer
imageUrls entry) held by the removed questions, so those references no
longer resolve. -/
theorem c2_deleteExam_cascade (st : AppState) (bs : BlobStore) (examId : String) :
    (∀ e : Exam, e ∈ (deleteExamOp st bs examId).1.exams ↔
      (e ∈ st.exams ∧ e.id ≠ examId)) ∧
    (∀ q : Question, q ∈ (deleteExamOp st bs examId).1.questions ↔
      (q ∈ st.questions ∧ q.examId ≠ examId)) ∧
    (∀ t : Tag, t ∈ (deleteExamOp st bs examId).1.tags ↔
      (t ∈ st.tags ∧ t.examId ≠ some examId)) ∧
    (∀ u : String,
      u ∈ (st.questions.filter (fun q => q.examId == examId)).flatMap questionUrls →
      isRefS u = true → getImage (deleteExamOp st bs examId).2 u = none) := by
  refine ⟨?_, ?_, ?_, ?_⟩
  · intro e
    simp [deleteExamOp, appReducer, List.mem_filter]
  · intro q
    simp [deleteExamOp, appReducer, List.mem_filter]
  · intro t
    simp [deleteExamOp, appReducer, List.mem_filter]
  · intro u hu href
    have hukeys : u ∈ ((st.questions.filter (fun q => q.examId == examId)).flatMap
        questionUrls).filter isRefS :=
      List.mem_filter.mpr ⟨hu, href⟩
    have hlen : 0 < (((st.questions.filter (fun q => q.examId == examId)).flatMap
        questionUrls).filter isRefS).length :=
      List.length_pos_of_mem hukeys
    show getImage (deleteExamOp st bs examId).2 u = none
    unfold deleteExamOp
    simp only [gt_iff_lt]
    rw [if_pos hlen]
    exact deleteImages_lookup_mem bs _ hukeys

/-- C2 witness: a concrete state in which deleting exam `e1` removes its
question and tag, keeps the other exam's records, and kills the stored blob
reference. -/
theorem c2_deleteExam_cascade_witness :
    (let e1 : Exam := ⟨"e1", "Midterm", none, none, "t0", "t0"⟩
     let e2 : Exam := ⟨"e2", "Final", none, none, "t0", "t0"⟩
     let q1 : Question := ⟨"q1", "e1", "image", some (mkRefI 0), none, [], none,
       "new", none, none, "t0", "t0", none⟩
     let q2 : Question := ⟨"q2", "e2", "image", none, none, [], none,
       "new", none, none, "t0", "t0", none⟩
     let tg : Tag := ⟨"t1", "algebra", "#fff", some "e1"⟩
     let st : AppState := ⟨[e1, e2], [q1, q2], [tg]⟩
     let bs : BlobStore := ⟨[(mkKey 0, "data:image/png;base64,AA")], 1⟩
     (e2 ∈ (deleteExamOp st bs "e1").1.exams) ∧
     (e1 ∉ (deleteExamOp st bs "e1").1.exams) ∧
     (q1 ∉ (deleteExamOp st bs "e1").1.questions) ∧
     (q2 ∈ (deleteExamOp st bs "e1").1.questions) ∧
     (tg ∉ (deleteExamOp st bs "e1").1.tags) ∧
     getImage (deleteExamOp st bs "e1").2 (mkRefI 0) = none) := by
  intro e1 e2 q1 q2 tg st bs
  obtain ⟨hex, hqs, hts, hblob⟩ := c2_deleteExam_cascade st bs "e1"
  refine ⟨(hex e2).mpr ⟨by simp [st], by decide⟩,
          fun hc => absurd ((hex e1).mp hc).2 (by decide),
          fun hc => absurd ((hqs q1).mp hc).2 (by decide),
          (hqs q2).mpr ⟨by simp [st], by decide⟩,
          fun hc => absurd ((hts tg).mp hc).2 (by decide),
          hblob (mkRefI 0) (by decide) (by decide)⟩

/-- C7: the tag set-add and set-remove transitions are idempotent (a second
application with the same arguments, even at a different timestamp, returns
the same state), and any question the operation does not actually change is
left entirely unchanged, `updatedAt` included. -/
theorem c7_tag_ops_idempotent (st : AppState) (qids : List String)
    (tagId : String) (nowa nowb : String) :
    (appReducer (appReducer st (.addTagToQuestions qids tagId nowa))
        (.addTagToQuestions qids tagId nowb)
      = appReducer st (.addTagToQuestions qids tagId nowa)) ∧
    (appReducer (appReducer st (.removeTagFromQuestions qids tagId nowa))
        (.removeTagFromQuestions qids tagId nowb)
      = appReducer st (.removeTagFromQuestions qids tagId nowa)) ∧
    (∀ (i : Nat) (q : Question), st.questions[i]? = some q →
      (q.id ∉ qids ∨ tagId ∈ q.tags) →
      (appReducer st (.addTagToQuestions qids tagId nowa)).questions[i]? = some q) ∧
    (∀ (i : Nat) (q : Question), st.questions[i]? = some q →
      (q.id ∉ qids ∨ tagId ∉ q.tags) →
      (appReducer st (.removeTagFromQuestions qids tagId nowa)).questions[i]? = some q) := by
  refine ⟨?_, ?_, ?_, ?_⟩
  · simp only [appReducer, List.map_map]
    congr 1
    apply List.map_congr_left
    intro q _
    simp only [Function.comp_apply]
    by_cases hmem : q.id ∈ qids
    · by_cases htag : tagId ∈ q.tags
      · simp [hmem, htag]
      · simp [hmem, htag]
    · simp [hmem]
  · simp only [appReducer, List.map_map]
    congr 1
    apply List.map_congr_left
    intro q _
    simp only [Function.comp_apply]
    by_cases hmem : q.id ∈ qids
    · by_cases htag : tagId ∈ q.tags
      · simp [hmem, htag, List.mem_filter]
      · simp [hmem, htag]
    · simp [hmem]
  · intro i q hq hnc
    simp only [appReducer, List.getElem?_map, hq, Option.map_some']
    rcases hnc with h | h
    · simp [h]
    · simp [h]
  · intro i q hq hnc
    simp only [appReducer, List.getElem?_map, hq, Option.map_some']
    rcases hnc with h | h
    · simp [h]
    · simp [h]

/-- C7 witness: idempotence and the no-change/no-bump behavior at a concrete
state (one question already carries the tag, another is not targeted). -/
theorem c7_tag_ops_idempotent_witness :
    (let q1 : Question := ⟨"q1", "e1", "image", none, none, ["t1"], none,
       "new", none, none, "t0", "t0", none⟩
     let q2 : Question := ⟨"q2", "e1", "image", none, none, [], none,
       "new", none, none, "t0", "t0", none⟩
     let st : AppState := ⟨[], [q1, q2], []⟩
     (appReducer (appReducer st (.addTagToQuestions ["q1"] "t1" "t5"))
        (.addTagToQuestions ["q1"] "t1" "t6")
       = appReducer st (.addTagToQuestions ["q1"] "t1" "t5")) ∧
     (appReducer st (.addTagToQuestions ["q1"] "t1" "t5")).questions[0]? = some q1 ∧
     (appReducer st (.removeTagFromQuestions ["q1"] "t1" "t5")).questions[1]? = some q2) := by
  intro q1 q2 st
  obtain ⟨hidem, _, hadd, hrem⟩ :=
    c7_tag_ops_idempotent st ["q1"] "t1" "t5" "t6"
  exact ⟨hidem, hadd 0 q1 (by simp [st]) (Or.inr (by simp [q1])),
         hrem 1 q2 (by simp [st]) (Or.inr (by simp [q2]))⟩

/-- C8: every update/delete transition whose target ids match no record
returns a state equal to the input state; the reducer (and the provider layer
around it) is total and treats stale ids as silent no-ops.  For `deleteExam`
the target id matches records through `Exam.id` and through the `examId`
foreign keys; for `deleteTag`, through `Tag.id` and the questions' tag sets. -/
theorem c8_stale_ids_are_noops (st : AppState) (bs : BlobStore) :
    (∀ examId data now, (∀ e ∈ st.exams, e.id ≠ examId) →
      appReducer st (.updateExam examId data now) = st) ∧
    (∀ qid data now, (∀ q ∈ st.questions, q.id ≠ qid) →
      appReducer st (.updateQuestion qid data now) = st) ∧
    (∀ qids data now, (∀ q ∈ st.questions, q.id ∉ qids) →
      appReducer st (.updateQuestions qids data now) = st) ∧
    (∀ examId, (∀ e ∈ st.exams, e.id ≠ examId) →
      (∀ q ∈ st.questions, q.examId ≠ examId) →
      (∀ t ∈ st.tags, t.examId ≠ some examId) →
      appReducer st (.deleteExam examId) = st) ∧
    (∀ qid, (∀ q ∈ st.questions, q.id ≠ qid) →
      appReducer st (.deleteQuestion qid) = st) ∧
    (∀ qids, (∀ q ∈ st.questions, q.id ∉ qids) →
      appReducer st (.deleteQuestions qids) = st) ∧
    (∀ t : Tag, (∀ x ∈ st.tags, x.id ≠ t.id) →
      appReducer st (.updateTag t) = st) ∧
    (∀ tagId, (∀ t ∈ st.tags, t.id ≠ tagId) →
      (∀ q ∈ st.questions, tagId ∉ q.tags) →
      appReducer st (.deleteTag tagId) = st) ∧
    (∀ qids tagId now, (∀ q ∈ st.questions, q.id ∉ qids) →
      appReducer st (.addTagToQuestions qids tagId now) = st) ∧
    (∀ qids tagId now, (∀ q ∈ st.questions, q.id ∉ qids) →
      appReducer st (.removeTagFromQuestions qids tagId now) = st) ∧
    (∀ qid data now, (∀ q ∈ st.questions, q.id ≠ qid) →
      updateQuestionOp st bs qid data now = (st, bs)) ∧
    (∀ qid, (∀ q ∈ st.questions, q.id ≠ qid) →
      deleteQuestionOp st bs qid = (st, bs)) := by
  have hfind : ∀ (qid : String), (∀ q ∈ st.questions, q.id ≠ qid) →
      st.questions.find? (fun q => q.id == qid) = none := by
    intro qid h
    rw [List.find?_eq_none]
    intro q hq
    simp [h q hq]
  refine ⟨?_, ?_, ?_, ?_, ?_, ?_, ?_, ?_, ?_, ?_, ?_, ?_⟩
  · intro examId data now h
    simp only [appReducer]
    rw [map_self_of_forall (fun e he => by simp [h e he])]
  · intro qid data now h
    simp only [appReducer]
    rw [map_self_of_forall (fun q hq => by simp [h q hq])]
  · intro qids data now h
    simp only [appReducer]
    rw [map_self_of_forall (fun q hq => by simp [h q hq])]
  · intro examId he hq ht
    simp only [appReducer]
    rw [List.filter_eq_self.mpr (fun e hee => by simp [he e hee]),
      List.filter_eq_self.mpr (fun q hqq => by simp [hq q hqq]),
      List.filter_eq_self.mpr (fun t htt => by simp [ht t htt])]
  · intro qid h
    simp only [appReducer]
    rw [List.filter_eq_self.mpr (fun q hq => by simp [h q hq])]
  · intro qids h
    simp only [appReducer]
    rw [List.filter_eq_self.mpr (fun q hq => by simp [h q hq])]
  · intro t h
    simp only [appReducer]
    rw [map_self_of_forall (fun x hx => by simp [h x hx])]
  · intro tagId ht hq
    simp only [appReducer]
    rw [List.filter_eq_self.mpr (fun t htt => by simp [ht t htt]),
      map_self_of_forall (fun q hqq => by
        rw [List.filter_eq_self.mpr (fun tid htid => by
          simp
          intro hc
          exact absurd (hc ▸ htid) (hq q hqq))])]
  · intro qids tagId now h
    simp only [appReducer]
    rw [map_self_of_forall (fun q hq => by simp [h q hq])]
  · intro qids tagId now h
    simp only [appReducer]
    rw [map_self_of_forall (fun q hq => by simp [h q hq])]
  · intro qid data now h
    unfold updateQuestionOp
    rw [hfind qid h]
  · intro qid h
    unfold deleteQuestionOp
    rw [hfind qid h]

/-- C8 witness: every listed transition applied with ids absent from a
concrete state returns exactly that state. -/
theorem c8_stale_ids_are_noops_witness :
    (let q1 : Question := ⟨"q1", "e1", "image", none, none, ["t1"], none,
       "new", none, none, "t0", "t0", none⟩
     let st : AppState := ⟨[⟨"e1", "Midterm", none, none, "t0", "t0"⟩], [q1],
       [⟨"t1", "algebra", "#fff", some "e1"⟩]⟩
     let bs : BlobStore := ⟨[], 0⟩
     appReducer st (.updateExam "nope" ⟨some "x", none, none⟩ "t9") = st ∧
     appReducer st (.deleteExam "nope") = st ∧
     appReducer st (.deleteQuestions ["nope1", "nope2"]) = st ∧
     appReducer st (.deleteTag "nope") = st ∧
     deleteQuestionOp st bs "nope" = (st, bs)) := by
  intro q1 st bs
  obtain ⟨h1, _, _, h4, _, h6, _, h8, _, _, _, h12⟩ := c8_stale_ids_are_noops st bs
  refine ⟨h1 "nope" ⟨some "x", none, none⟩ "t9" (by decide),
          h4 "nope" (by decide) (by decide) (by decide),
          h6 ["nope1", "nope2"] (by decide),
          h8 "nope" (by decide) (by decide),
          h12 "nope" (by decide)⟩

/-- C9: the persisted projection keeps a question's `imageUrl` only when it
is a blob reference (otherwise the persisted field is absent), keeps only the
blob-reference entries of `answer.imageUrls`, preserves every other question
field, persists exams and tags unchanged, and does not modify the live
state. -/
theorem c9_persisted_metadata (st : AppState) (ls : LocalStorageState) :
    ((persistEffect st ls).1 = st) ∧
    ((persistEffect st ls).2.exams = some st.exams) ∧
    ((persistEffect st ls).2.tags = some st.tags) ∧
    (∀ (i : Nat) (q : Question), st.questions[i]? = some q →
      ∃ m : Question, ((persistEffect st ls).2.questionsMeta.getD [])[i]? = some m ∧
        (isRefO q.imageUrl = true → m.imageUrl = q.imageUrl) ∧
        (isRefO q.imageUrl = false → m.imageUrl = none) ∧
        m.id = q.id ∧ m.examId = q.examId ∧ m.type = q.type ∧ m.text = q.text ∧
        m.tags = q.tags ∧ m.difficulty = q.difficulty ∧ m.status = q.status ∧
        m.notes = q.notes ∧ m.createdAt = q.createdAt ∧ m.updatedAt = q.updatedAt ∧
        m.lastReviewedAt = q.lastReviewedAt ∧
        (q.answer = none → m.answer = none) ∧
        (∀ a : Answer, q.answer = some a → ∃ a2 : Answer, m.answer = some a2 ∧
          a2.text = a.text ∧
          a2.imageUrls = a.imageUrls.map (fun us => us.filter isRefS))) := by
  refine ⟨rfl, rfl, rfl, ?_⟩
  intro i q hq
  refine ⟨toMeta q, ?_, ?_, ?_, rfl, rfl, rfl, rfl, rfl, rfl, rfl, rfl, rfl, rfl, rfl,
    ?_, ?_⟩
  · show (st.questions.map toMeta)[i]? = some (toMeta q)
    rw [List.getElem?_map, hq, Option.map_some']
  · intro h
    simp [toMeta, h]
  · intro h
    simp [toMeta, h]
  · intro h
    simp [toMeta, h]
  · intro a h
    exact ⟨{ a with imageUrls := a.imageUrls.map (fun us => us.filter isRefS) },
      by simp [toMeta, h], rfl, rfl⟩

/-- C9 witness: a question holding one blob reference and one inline data URI
persists with the reference kept, the inline payload dropped, and the state
unchanged. -/
theorem c9_persisted_metadata_witness :
    (let a : Answer := ⟨some "ans", some [mkRefI 1, "data:image/png;base64,BB"]⟩
     let q : Question := ⟨"q1", "e1", "image", some "data:image/png;base64,AA", none,
       [], none, "new", some "h1", some a, "t0", "t0", none⟩
     let st : AppState := ⟨[], [q], []⟩
     let ls : LocalStorageState := ⟨none, none, none⟩
     (persistEffect st ls).1 = st ∧
     ∃ m : Question, ((persistEffect st ls).2.questionsMeta.getD [])[0]? = some m ∧
       m.imageUrl = none ∧ m.notes = some "h1" ∧
       ∃ a2 : Answer, m.answer = some a2 ∧ a2.imageUrls = some [mkRefI 1]) := by
  intro a q st ls
  obtain ⟨hstate, _, _, hper⟩ := c9_persisted_metadata st ls
  obtain ⟨m, hm, _, hdrop, _, _, _, _, _, _, _, hnotes, _, _, _, _, hans⟩ :=
    hper 0 q (by simp [st])
  refine ⟨hstate, m, hm, hdrop (by decide), hnotes, ?_⟩
  obtain ⟨a2, ha2, _, hurls⟩ := hans a rfl
  refine ⟨a2, ha2, ?_⟩
  rw [hurls]
  have : (([mkRefI 1, "data:image/png;base64,BB"] : List String).filter isRefS)
      = [mkRefI 1] := by
    have h1 : isRefS (mkRefI 1) = true := isRefS_mkRefI 1
    have h2 : isRefS "data:image/png;base64,BB" = false := by decide
    simp [List.filter, h1, h2]
  simp [a, this]

/-- C5: a parsed import document lacking the `data` member or whose
`data.exams` / `data.questions` is not an array is rejected with the
descriptive error before any record-store or blob-store change (both the
merge and the overwrite pipelines return the error and no successor state);
a document with both arrays but no `tags` imports with tags defaulted to the
empty collection. -/
theorem c5_import_validation (doc : ParsedDoc) (st : AppState) (bs : BlobStore) :
    ((doc.data = none ∨
      (∃ d : ParsedData, doc.data = some d ∧ (d.exams = none ∨ d.questions = none))) →
      importMerge doc st bs = .error "Invalid backup file format." ∧
      importReplace doc st bs = .error "Invalid backup file format.") ∧
    (∀ (d : ParsedData) (es : List Exam) (qs : List Question),
      doc.data = some d → d.exams = some es → d.questions = some qs → d.tags = none →
      validateImport doc = .ok { exams := es, questions := qs, tags := [] }) := by
  constructor
  · intro h
    have hv : validateImport doc = .error "Invalid backup file format." := by
      rcases h with h | ⟨d, hd, h⟩
      · simp [validateImport, h]
      · rcases h with h | h
        · simp [validateImport, hd, h]
        · cases hex : d.exams with
          | none => simp [validateImport, hd, hex]
          | some es => simp [validateImport, hd, hex, h]
    constructor
    · simp [importMerge, hv]
    · simp [importReplace, hv]
  · intro d es qs hd hes hqs hts
    simp [validateImport, hd, hes, hqs, hts]

/-- C5 witness: a document with questions but no exams is rejected by both
pipelines; a document with both arrays and no tags validates with empty
tags. -/
theorem c5_import_validation_witness :
    (let bad : ParsedDoc := ⟨some ⟨none, some [], none⟩⟩
     let good : ParsedDoc := ⟨some ⟨some [], some [], none⟩⟩
     let st : AppState := ⟨[], [], []⟩
     let bs : BlobStore := ⟨[], 0⟩
     importMerge bad st bs = .error "Invalid backup file format." ∧
     importReplace bad st bs = .error "Invalid backup file format." ∧
     validateImport good = .ok { exams := [], questions := [], tags := [] }) := by
  intro bad good st bs
  obtain ⟨hrej, _⟩ := c5_import_validation bad st bs
  obtain ⟨h1, h2⟩ := hrej (Or.inr ⟨⟨none, some [], none⟩, rfl, Or.inl rfl⟩)
  obtain ⟨_, hok⟩ := c5_import_validation good st bs
  exact ⟨h1, h2, hok ⟨some [], some [], none⟩ [] [] rfl rfl rfl rfl⟩

/-! ## Lemmas about the JS `Map` model -/

theorem mapGet_cons_pos {α : Type} {p : String × α} (m : List (String × α))
    {k : String} (h : (p.1 == k) = true) : mapGet (p :: m) k = some p.2 := by
  unfold mapGet
  have hf : List.find? (fun q => q.1 == k) (p :: m) = some p :=
    List.find?_cons_of_pos _ h
  rw [hf]
  rfl

theorem mapGet_cons_neg {α : Type} {p : String × α} (m : List (String × α))
    {k : String} (h : (p.1 == k) = false) : mapGet (p :: m) k = mapGet m k := by
  unfold mapGet
  have hf : List.find? (fun q => q.1 == k) (p :: m) =
      List.find? (fun q => q.1 == k) m :=
    List.find?_cons_of_neg _ (by simp [h])
  rw [hf]

theorem mapSet_fresh {α : Type} {m : List (String × α)} {k : String} (v : α)
    (h : ∀ p ∈ m, p.1 ≠ k) : mapSet m k v = m ++ [(k, v)] := by
  unfold mapSet
  have hany : m.any (fun p => p.1 == k) = false := by
    simp only [List.any_eq_false]
    intro p hp
    simp [h p hp]
  rw [hany]
  simp

theorem mapSet_map_of_any {α : Type} {m : List (String × α)} {k : String} (v : α)
    (hany : m.any (fun p => p.1 == k) = true) :
    mapSet m k v = m.map (fun p => if p.1 == k then (k, v) else p) := by
  unfold mapSet
  rw [hany]
  simp

theorem fresh_of_any_false {α : Type} {m : List (String × α)} {k : String}
    (h : m.any (fun p => p.1 == k) = false) : ∀ p ∈ m, p.1 ≠ k := by
  intro p hp
  have := List.any_eq_false.mp h p hp
  simpa using this

theorem mapGet_mapSet_self {α : Type} (m : List (String × α)) (k : String) (v : α) :
    mapGet (mapSet m k v) k = some v := by
  induction m with
  | nil =>
    rw [mapSet_fresh v (by intro p hp; cases hp)]
    exact mapGet_cons_pos _ (by simp)
  | cons p ps ih =>
    cases hp : (p.1 == k) with
    | true =>
      have hany : (p :: ps).any (fun q => q.1 == k) = true := by
        simp [List.any_cons, hp]
      rw [mapSet_map_of_any v hany]
      simp only [List.map_cons, hp, if_pos]
      exact mapGet_cons_pos _ (by simp)
    | false =>
      cases hany2 : ps.any (fun q => q.1 == k) with
      | true =>
        have hany : (p :: ps).any (fun q => q.1 == k) = true := by
          simp [List.any_cons, hany2]
        rw [mapSet_map_of_any v hany]
        simp only [List.map_cons]
        rw [if_neg (by simp [hp])]
        rw [mapGet_cons_neg _ hp]
        rw [← mapSet_map_of_any v hany2]
        exact ih
      | false =>
        have hfresh : ∀ q ∈ ps, q.1 ≠ k := fresh_of_any_false hany2
        have hall : ∀ q ∈ (p :: ps), q.1 ≠ k := by
          intro q hq
          rcases List.mem_cons.mp hq with h1 | h2
          · subst h1; simpa using hp
          · exact hfresh q h2
        rw [mapSet_fresh v hall]
        rw [show (p :: ps) ++ [(k, v)] = p :: (ps ++ [(k, v)]) from rfl]
        rw [mapGet_cons_neg _ hp]
        rw [← mapSet_fresh v hfresh]
        exact ih

theorem mapGet_mapSet_ne {α : Type} (m : List (String × α)) {k k' : String}
    (v : α) (h : k' ≠ k) : mapGet (mapSet m k v) k' = mapGet m k' := by
  have hkk : ((k : String) == k') = false := by
    simp
    exact fun hc => h hc.symm
  induction m with
  | nil =>
    rw [mapSet_fresh v (by intro p hp; cases hp)]
    rw [show ([] : List (String × α)) ++ [(k, v)] = [(k, v)] from rfl]
    rw [mapGet_cons_neg _ hkk]
  | cons p ps ih =>
    cases hany : (p :: ps).any (fun q => q.1 == k) with
    | true =>
      rw [mapSet_map_of_any v hany]
      simp only [List.map_cons]
      cases hp : (p.1 == k) with
      | true =>
        rw [if_pos rfl]
        rw [mapGet_cons_neg _ hkk]
        have hp1 : p.1 = k := by simpa using hp
        rw [mapGet_cons_neg _ (by rw [hp1]; exact hkk)]
        cases hany2 : ps.any (fun q => q.1 == k) with
        | true =>
          rw [← mapSet_map_of_any v hany2]
          exact ih
        | false =>
          have hfresh : ∀ q ∈ ps, q.1 ≠ k := fresh_of_any_false hany2
          have hid : ps.map (fun q => if q.1 == k then (k, v) else q) = ps := by
            apply map_self_of_forall
            intro q hq
            simp [hfresh q hq]
          rw [hid]
      | false =>
        rw [if_neg (by simp)]
        have hany2 : ps.any (fun q => q.1 == k) = true := by
          rcases List.any_eq_true.mp hany with ⟨q, hq, hqk⟩
          rcases List.mem_cons.mp hq with h1 | h2
          · subst h1; rw [hqk] at hp; cases hp
          · exact List.any_eq_true.mpr ⟨q, h2, hqk⟩
        cases hpk : (p.1 == k') with
        | true =>
          rw [mapGet_cons_pos _ hpk, mapGet_cons_pos _ hpk]
        | false =>
          rw [mapGet_cons_neg _ hpk, mapGet_cons_neg _ hpk]
          rw [← mapSet_map_of_any v hany2]
          exact ih
    | false =>
      have hall : ∀ q ∈ (p :: ps), q.1 ≠ k := fresh_of_any_false hany
      rw [mapSet_fresh v hall]
      rw [show (p :: ps) ++ [(k, v)] = p :: (ps ++ [(k, v)]) from rfl]
      cases hpk : (p.1 == k') with
      | true => rw [mapGet_cons_pos _ hpk, mapGet_cons_pos _ hpk]
      | false =>
        rw [mapGet_cons_neg _ hpk, mapGet_cons_neg _ hpk]
        have hfresh : ∀ q ∈ ps, q.1 ≠ k := fun q hq => hall q (List.mem_cons_of_mem _ hq)
        rw [← mapSet_fresh v hfresh]
        exact ih

theorem mapSet_mem_of_ne {α : Type} {m : List (String × α)} {k : String} {v : α}
    {k' : String} (v' : α) (hmem : (k, v) ∈ m) (hne : k ≠ k') :
    (k, v) ∈ mapSet m k' v' := by
  unfold mapSet
  by_cases hany : m.any (fun p => p.1 == k') = true
  · rw [if_pos hany]
    refine List.mem_map.mpr ⟨(k, v), hmem, ?_⟩
    simp [hne]
  · rw [if_neg hany]
    exact List.mem_append_left _ hmem

theorem length_mapSet_ge {α : Type} (m : List (String × α)) (k : String) (v : α) :
    m.length ≤ (mapSet m k v).length := by
  unfold mapSet
  by_cases hany : m.any (fun p => p.1 == k) = true
  · rw [if_pos hany]; simp
  · rw [if_neg hany]; simp

theorem mapGet_of_mem_nodup {α : Type} {m : List (String × α)} {k : String} {v : α}
    (h : (m.map (fun p => p.1)).Nodup) (hmem : (k, v) ∈ m) : mapGet m k = some v := by
  induction m with
  | nil => cases hmem
  | cons p ps ih =>
    rcases List.mem_cons.mp hmem with h1 | h2
    · rw [← h1]
      exact mapGet_cons_pos _ (by simp)
    · rw [List.map_cons] at h
      have hn := List.nodup_cons.mp h
      have hk : k ∈ ps.map (fun p => p.1) :=
        List.mem_map.mpr ⟨(k, v), h2, rfl⟩
      have hp1 : p.1 ≠ k := by
        intro hc
        exact hn.1 (hc ▸ hk)
      rw [mapGet_cons_neg _ (by simp [hp1])]
      exact ih hn.2 h2

theorem mem_values_of_get {α : Type} {m : List (String × α)} {k : String} {v : α}
    (h : mapGet m k = some v) : v ∈ mapValues m := by
  unfold mapGet at h
  cases hf : m.find? (fun p => p.1 == k) with
  | none => rw [hf] at h; cases h
  | some p =>
    rw [hf] at h
    have hv : p.2 = v := by simpa using h
    exact hv ▸ List.mem_map_of_mem _ (List.mem_of_find?_eq_some hf)

theorem foldl_mapSet_of_nodup {α : Type} (l : List (String × α)) :
    ∀ acc : List (String × α), ((acc ++ l).map (fun p => p.1)).Nodup →
    l.foldl (fun m p => mapSet m p.1 p.2) acc = acc ++ l := by
  induction l with
  | nil => intro acc _; simp
  | cons p ps ih =>
    intro acc h
    simp only [List.foldl_cons]
    have hfresh : ∀ q ∈ acc, q.1 ≠ p.1 := by
      intro q hq hc
      rw [List.map_append] at h
      have hdisj := (List.nodup_append.mp h).2.2
      exact hdisj (List.mem_map.mpr ⟨q, hq, rfl⟩)
        (by rw [hc]; exact List.mem_map.mpr ⟨p, List.mem_cons_self _ _, rfl⟩)
    rw [mapSet_fresh p.2 hfresh]
    have h2 : (((acc ++ [p]) ++ ps).map (fun q => q.1)).Nodup := by
      rw [List.append_assoc, List.singleton_append]
      exact h
    rw [ih (acc ++ [p]) h2]
    rw [List.append_assoc, List.singleton_append]

theorem mapFromList_of_nodup {α : Type} (l : List (String × α))
    (h : (l.map (fun p => p.1)).Nodup) : mapFromList l = l := by
  have := foldl_mapSet_of_nodup l [] (by simpa using h)
  simpa [mapFromList] using this

theorem mergeFold_length_ge {α : Type} (getId : α → String)
    (comb : Option α → α → α) (m : List (String × α)) (inc : List α) :
    m.length ≤ (mergeFold getId comb m inc).length := by
  induction inc generalizing m with
  | nil => exact Nat.le_refl _
  | cons x xs ih =>
    calc m.length ≤ (mapSet m (getId x) (comb (mapGet m (getId x)) x)).length :=
        length_mapSet_ge _ _ _
      _ ≤ _ := ih _

theorem mergeFold_get_notmem {α : Type} (getId : α → String)
    (comb : Option α → α → α) (m : List (String × α)) {inc : List α} {k : String}
    (h : ∀ x ∈ inc, getId x ≠ k) :
    mapGet (mergeFold getId comb m inc) k = mapGet m k := by
  induction inc generalizing m with
  | nil => rfl
  | cons x xs ih =>
    show mapGet (mergeFold getId comb (mapSet m (getId x) _) xs) k = mapGet m k
    rw [ih _ (fun y hy => h y (List.mem_cons_of_mem _ hy))]
    exact mapGet_mapSet_ne m _ (fun hc => h x (List.mem_cons_self _ _) hc.symm)

theorem mergeFold_mem_preserve {α : Type} (getId : α → String)
    (comb : Option α → α → α) {m : List (String × α)} {inc : List α}
    {k : String} {v : α} (hmem : (k, v) ∈ m) (h : ∀ x ∈ inc, getId x ≠ k) :
    (k, v) ∈ mergeFold getId comb m inc := by
  induction inc generalizing m with
  | nil => exact hmem
  | cons x xs ih =>
    show (k, v) ∈ mergeFold getId comb (mapSet m (getId x) _) xs
    exact ih (mapSet_mem_of_ne _ hmem
      (fun hc => h x (List.mem_cons_self _ _) hc.symm))
      (fun y hy => h y (List.mem_cons_of_mem _ hy))

theorem mergeFold_get_of_mem {α : Type} (getId : α → String)
    (comb : Option α → α → α) (m : List (String × α)) {inc : List α} {x : α}
    (hx : x ∈ inc) (hnodup : (inc.map getId).Nodup) :
    mapGet (mergeFold getId comb m inc) (getId x) =
      some (comb (mapGet m (getId x)) x) := by
  induction inc generalizing m with
  | nil => cases hx
  | cons y ys ih =>
    rw [List.map_cons] at hnodup
    have hn := List.nodup_cons.mp hnodup
    rcases List.mem_cons.mp hx with h1 | h2
    · subst h1
      show mapGet (mergeFold getId comb (mapSet m (getId x) _) ys) (getId x) = _
      rw [mergeFold_get_notmem getId comb _ (by
        intro z hz hc
        exact hn.1 (hc ▸ List.mem_map.mpr ⟨z, hz, rfl⟩))]
      exact mapGet_mapSet_self _ _ _
    · have hne : getId y ≠ getId x := by
        intro hc
        exact hn.1 (hc ▸ List.mem_map.mpr ⟨x, h2, rfl⟩)
      show mapGet (mergeFold getId comb (mapSet m (getId y) _) ys) (getId x) = _
      rw [ih _ h2 hn.2]
      rw [mapGet_mapSet_ne m _ (fun hc => hne hc.symm)]

/-! ## id preservation through blob extraction -/

theorem processImportedQ_id (bs : BlobStore) (q : Question) :
    (processImportedQ bs q).1.id = q.id := by
  unfold processImportedQ
  rcases hiu : q.imageUrl with _ | u
  · cases ha : q.answer with
    | none => simp [hiu, ha]
    | some a =>
      cases haus : a.imageUrls with
      | none => simp [hiu, ha, haus]
      | some us => simp [hiu, ha, haus]
  · by_cases hb : isBase64S u = true
    · cases ha : q.answer with
      | none => simp [hiu, hb, ha]
      | some a =>
        cases haus : a.imageUrls with
        | none => simp [hiu, hb, ha, haus]
        | some us => simp [hiu, hb, ha, haus]
    · have hbf : isBase64S u = false := by simpa using hb
      cases ha : q.answer with
      | none => simp [hiu, hbf, ha]
      | some a =>
        cases haus : a.imageUrls with
        | none => simp [hiu, hbf, ha, haus]
        | some us => simp [hiu, hbf, ha, haus]

theorem processImportedQs_ids (bs : BlobStore) (qs : List Question) :
    (processImportedQs bs qs).1.map Question.id = qs.map Question.id := by
  induction qs generalizing bs with
  | nil => rfl
  | cons q qs ih =>
    show ((processImportedQ bs q).1 :: (processImportedQs (processImportedQ bs q).2 qs).1).map
      Question.id = q.id :: qs.map Question.id
    rw [List.map_cons, processImportedQ_id, ih]

/-! ## Claim theorems: merge -/

/-- C3: merge is additive and non-destructive.  For any state whose
collections have pairwise-distinct ids (the id-uniqueness invariant of the
data model) and any snapshot, `mergeData` never reduces the count of exams,
questions or tags, and every pre-merge record whose id does not occur in the
snapshot is still present, unchanged, in the post-merge state. -/
theorem c3_merge_additive (st : AppState) (bs : BlobStore) (data : AppState)
    (hex : (st.exams.map Exam.id).Nodup)
    (hqs : (st.questions.map Question.id).Nodup)
    (hts : (st.tags.map Tag.id).Nodup) :
    (st.exams.length ≤ (mergeDataOp st bs data).1.exams.length) ∧
    (st.questions.length ≤ (mergeDataOp st bs data).1.questions.length) ∧
    (st.tags.length ≤ (mergeDataOp st bs data).1.tags.length) ∧
    (∀ e ∈ st.exams, (∀ x ∈ data.exams, x.id ≠ e.id) →
      e ∈ (mergeDataOp st bs data).1.exams) ∧
    (∀ q ∈ st.questions, (∀ x ∈ data.questions, x.id ≠ q.id) →
      q ∈ (mergeDataOp st bs data).1.questions) ∧
    (∀ t ∈ st.tags, (∀ x ∈ data.tags, x.id ≠ t.id) →
      t ∈ (mergeDataOp st bs data).1.tags) := by
  have hkeys : ∀ {β : Type} (l : List β) (getId : β → String),
      (l.map (fun x => (getId x, x))).map (fun p => p.1) = l.map getId := by
    intro β l getId
    rw [List.map_map]
    rfl
  have hlen : ∀ {β : Type} (l : List β) (getId : β → String)
      (comb : Option β → β → β) (inc : List β), (l.map getId).Nodup →
      l.length ≤ (mergeColl getId comb l inc).length := by
    intro β l getId comb inc hnd
    unfold mergeColl mapValues
    rw [mapFromList_of_nodup _ (by rw [hkeys]; exact hnd)]
    rw [List.length_map]
    calc l.length = (l.map (fun x => (getId x, x))).length := by rw [List.length_map]
      _ ≤ _ := mergeFold_length_ge _ _ _ _
  have hpres : ∀ {β : Type} (l : List β) (getId : β → String)
      (comb : Option β → β → β) (inc : List β) (e : β), (l.map getId).Nodup →
      e ∈ l → (∀ x ∈ inc, getId x ≠ getId e) →
      e ∈ mergeColl getId comb l inc := by
    intro β l getId comb inc e hnd he hne
    unfold mergeColl
    have hmem : (getId e, e) ∈ mapFromList (l.map (fun x => (getId x, x))) := by
      rw [mapFromList_of_nodup _ (by rw [hkeys]; exact hnd)]
      exact List.mem_map.mpr ⟨e, he, rfl⟩
    have := mergeFold_mem_preserve getId comb hmem hne
    exact List.mem_map.mpr ⟨(getId e, e), this, rfl⟩
  refine ⟨hlen st.exams Exam.id _ _ hex, ?_, hlen st.tags Tag.id _ _ hts,
    fun e he hne => hpres st.exams Exam.id _ _ e hex he hne, ?_,
    fun t ht hne => hpres st.tags Tag.id _ _ t hts ht hne⟩
  · exact hlen st.questions Question.id _ _ hqs
  · intro q hq hne
    apply hpres st.questions Question.id _ _ q hqs hq
    intro x hx
    have hxid : x.id ∈ (processImportedQs bs data.questions).1.map Question.id :=
      List.mem_map.mpr ⟨x, hx, rfl⟩
    rw [processImportedQs_ids] at hxid
    rcases List.mem_map.mp hxid with ⟨y, hy, hyid⟩
    rw [← hyid]
    exact hne y hy

/-- C3 witness: merging a disjoint snapshot into a concrete one-record-each
state keeps all counts and keeps the local records unchanged. -/
theorem c3_merge_additive_witness :
    (let e1 : Exam := ⟨"e1", "Midterm", none, none, "t0", "t0"⟩
     let q1 : Question := ⟨"q1", "e1", "image", none, none, [], none,
       "new", none, none, "t0", "t0", none⟩
     let tg : Tag := ⟨"t1", "algebra", "#fff", some "e1"⟩
     let st : AppState := ⟨[e1], [q1], [tg]⟩
     let bs : BlobStore := ⟨[], 0⟩
     let snap : AppState := ⟨[⟨"e9", "Other", none, none, "t1", "t1"⟩], [], []⟩
     (st.exams.length ≤ (mergeDataOp st bs snap).1.exams.length) ∧
     e1 ∈ (mergeDataOp st bs snap).1.exams ∧
     q1 ∈ (mergeDataOp st bs snap).1.questions ∧
     tg ∈ (mergeDataOp st bs snap).1.tags) := by
  intro e1 q1 tg st bs snap
  obtain ⟨hl1, _, _, hp1, hp2, hp3⟩ := c3_merge_additive st bs snap
    (by decide) (by decide) (by decide)
  exact ⟨hl1, hp1 e1 (by simp [st]) (by decide),
    hp2 q1 (by simp [st]) (by decide), hp3 tg (by simp [st]) (by decide)⟩

/-! ## Claim theorems: shallow merge at the JS-object level -/

/-- A parsed JSON record as the MERGE_DATA spread sees it at runtime: an id
plus a map from present field names to values.  The shallow spread does not
inspect values, so one value type suffices to state per-field override. -/
structure JsObj where
  id : String
  fields : String → Option String

/-- `{ ...old, ...inc }` on such records: a field keeps the incoming value
when the incoming record carries the field, the old value otherwise. -/
def spreadObj (old inc : JsObj) : JsObj :=
  { id := inc.id, fields := fun f => (inc.fields f).or (old.fields f) }

/-- One collection of MERGE_DATA on runtime objects. -/
def mergeObjs (old inc : List JsObj) : List JsObj :=
  mergeColl JsObj.id (combOf spreadObj) old inc

/-- C4: merge resolves id collisions by shallow per-field merge with incoming
fields winning.  If a record id exists both locally and in the snapshot
(collections with pairwise-distinct ids), the merged collection holds a
record with that id whose value at every field present in the snapshot record
is the snapshot's and at every field absent from it is the local one. -/
theorem c4_merge_shallow_fields (old inc : List JsObj) (k : String) (o x : JsObj)
    (hnodup : (old.map JsObj.id).Nodup) (hincnodup : (inc.map JsObj.id).Nodup)
    (ho : o ∈ old) (hoid : o.id = k) (hx : x ∈ inc) (hxid : x.id = k) :
    ∃ m ∈ mergeObjs old inc, m.id = k ∧
      (∀ f v, x.fields f = some v → m.fields f = some v) ∧
      (∀ f, x.fields f = none → m.fields f = o.fields f) := by
  have hkeys : (old.map (fun y => (y.id, y))).map (fun p => p.1) = old.map JsObj.id := by
    rw [List.map_map]
    rfl
  have hinit : mapFromList (old.map (fun y => (y.id, y))) = old.map (fun y => (y.id, y)) :=
    mapFromList_of_nodup _ (by rw [hkeys]; exact hnodup)
  have hgetold : mapGet (mapFromList (old.map (fun y => (y.id, y)))) k = some o := by
    rw [hinit]
    apply mapGet_of_mem_nodup (by rw [hkeys]; exact hnodup)
    exact List.mem_map.mpr ⟨o, ho, by rw [hoid]⟩
  have hget := mergeFold_get_of_mem JsObj.id (combOf spreadObj)
    (mapFromList (old.map (fun y => (y.id, y)))) hx hincnodup
  rw [hxid, hgetold] at hget
  refine ⟨spreadObj o x, mem_values_of_get hget, ?_, ?_, ?_⟩
  · show x.id = k
    exact hxid
  · intro f v hf
    show (x.fields f).or (o.fields f) = some v
    rw [hf]
    rfl
  · intro f hf
    show (x.fields f).or (o.fields f) = o.fields f
    rw [hf]
    exact Option.none_or

/-- C4 witness (Scenario D): local tag `{name:"A", color:"#000"}` merged with
incoming `{name:"A2"}` (no color) under the same id yields
`{name:"A2", color:"#000"}`. -/
theorem c4_merge_shallow_fields_witness :
    (let ltag : JsObj := ⟨"t1", fun f =>
       if f == "name" then some "A" else if f == "color" then some "#000" else none⟩
     let itag : JsObj := ⟨"t1", fun f => if f == "name" then some "A2" else none⟩
     ∃ m ∈ mergeObjs [ltag] [itag], m.id = "t1" ∧
       m.fields "name" = some "A2" ∧ m.fields "color" = some "#000") := by
  intro ltag itag
  obtain ⟨m, hm, hid, hpresent, habsent⟩ :=
    c4_merge_shallow_fields [ltag] [itag] "t1" ltag itag
      (by simp [ltag]) (by simp [itag]) (List.mem_singleton.mpr rfl) rfl
      (List.mem_singleton.mpr rfl) rfl
  refine ⟨m, hm, hid, hpresent "name" "A2" (by simp [itag]), ?_⟩
  rw [habsent "color" (by simp [itag])]
  simp [ltag]

/-! ## Claim theorems: dedup by content digest -/

def isHexChar (c : Char) : Bool := "0123456789abcdef".data.contains c

set_option maxRecDepth 20000 in
theorem byteHex_spec : ∀ b : Nat, b < 256 →
    (padStart2 (String.mk (Nat.toDigits 16 b))).length = 2 ∧
    ∀ c ∈ (padStart2 (String.mk (Nat.toDigits 16 b))).data, isHexChar c = true := by
  decide

theorem foldl_append_length (l : List String) :
    ∀ init : String, (l.foldl (fun r s => r ++ s) init).length
      = init.length + (l.map String.length).sum := by
  induction l with
  | nil => intro init; simp
  | cons s ss ih =>
    intro init
    simp only [List.foldl_cons]
    rw [ih (init ++ s)]
    simp only [String.length_append, List.map_cons, List.sum_cons]
    omega

theorem foldl_append_data (l : List String) :
    ∀ init : String, (l.foldl (fun r s => r ++ s) init).data
      = init.data ++ l.flatMap String.data := by
  induction l with
  | nil => intro init; simp
  | cons s ss ih =>
    intro init
    simp only [List.foldl_cons]
    rw [ih (init ++ s)]
    rw [strData_append]
    simp

theorem sum_const_two : ∀ l : List Nat, (∀ x ∈ l, x = 2) → l.sum = 2 * l.length := by
  intro l
  induction l with
  | nil => intro _; rfl
  | cons x xs ih =>
    intro h
    simp only [List.sum_cons, List.length_cons]
    rw [h x (List.mem_cons_self _ _), ih (fun y hy => h y (List.mem_cons_of_mem _ hy))]
    omega

/-- C6: the content digest is deterministic in the file bytes and is the
bytewise hex encoding of the (cryptographic) SHA-256 digest, and the upload
path skips and counts any file whose digest is already present, whether the
digest comes from an existing image question's notes or from an earlier file
of the same batch; in particular two files with identical bytes yield exactly
one new question and a skipped count of 1. -/
theorem c6_dedup_by_digest :
    (∀ (sha : List Nat → List Nat) (f g : UFile), f.bytes = g.bytes →
      calculateHash sha f = calculateHash sha g) ∧
    (∀ (sha : List Nat → List Nat) (f : UFile), (∀ b ∈ sha f.bytes, b < 256) →
      (calculateHash sha f).length = 2 * (sha f.bytes).length ∧
      ∀ c ∈ (calculateHash sha f).data, isHexChar c = true) ∧
    (∀ (sha : List Nat → List Nat) (toDataUrl : UFile → String)
      (qs : List Question) (examId : String) (f : UFile),
      strStartsWith "image/" f.type = true →
      calculateHash sha f ∈ existingHashes qs →
      handleFiles sha toDataUrl qs examId [f] = ([], 1)) ∧
    (∀ (sha : List Nat → List Nat) (toDataUrl : UFile → String)
      (qs : List Question) (examId : String) (f g : UFile),
      strStartsWith "image/" f.type = true →
      strStartsWith "image/" g.type = true →
      f.bytes = g.bytes →
      calculateHash sha f ∉ existingHashes qs →
      (handleFiles sha toDataUrl qs examId [f, g]).1.length = 1 ∧
      (handleFiles sha toDataUrl qs examId [f, g]).2 = 1) := by
  have hdet : ∀ (sha : List Nat → List Nat) (f g : UFile), f.bytes = g.bytes →
      calculateHash sha f = calculateHash sha g := by
    intro sha f g h
    unfold calculateHash
    rw [h]
  refine ⟨hdet, ?_, ?_, ?_⟩
  · intro sha f h
    constructor
    · show (String.join _).length = _
      unfold String.join
      rw [foldl_append_length]
      simp only [String.length, List.map_map]
      rw [show ("" : String).data.length = 0 from rfl]
      rw [sum_const_two _ (by
        intro x hx
        rcases List.mem_map.mp hx with ⟨b, hb, hbx⟩
        rw [← hbx]
        exact (byteHex_spec b (h b hb)).1)]
      simp
    · intro c hc
      unfold calculateHash String.join at hc
      rw [foldl_append_data] at hc
      simp only [show ("" : String).data = [] from rfl, List.nil_append] at hc
      rcases List.mem_flatMap.mp hc with ⟨s, hs, hcs⟩
      rcases List.mem_map.mp hs with ⟨b, hb, hbs⟩
      rw [← hbs] at hcs
      exact (byteHex_spec b (h b hb)).2 c hcs
  · intro sha tdu qs examId f himg hmem
    unfold handleFiles
    simp [handleFilesLoop, himg, hmem]
  · intro sha tdu qs examId f g himgf himgg hbytes hnot
    have hfg : calculateHash sha g = calculateHash sha f := hdet sha g f hbytes.symm
    unfold handleFiles
    constructor
    · simp [handleFilesLoop, himgf, himgg, hfg, hnot]
    · simp [handleFilesLoop, himgf, himgg, hfg, hnot]

/-- C6 witness: with a stand-in digest primitive, a file whose digest is
already recorded in an existing question's notes is skipped, and a batch of
two byte-identical fresh files produces one question and one skip. -/
theorem c6_dedup_by_digest_witness :
    (let sha0 : List Nat → List Nat := fun _ => [0]
     let tdu : UFile → String := fun _ => "data:image/png;base64,AA"
     let f : UFile := ⟨"image/png", [1, 2]⟩
     let g : UFile := ⟨"image/jpeg", [1, 2]⟩
     let qdup : Question := ⟨"q1", "e1", "image", none, none, [], none,
       "new", some "00", none, "t0", "t0", none⟩
     calculateHash sha0 f = calculateHash sha0 g ∧
     handleFiles sha0 tdu [qdup] "e1" [f] = ([], 1) ∧
     (handleFiles sha0 tdu [] "e1" [f, g]).1.length = 1 ∧
     (handleFiles sha0 tdu [] "e1" [f, g]).2 = 1) := by
  intro sha0 tdu f g qdup
  obtain ⟨hdet, _, hskip, hpair⟩ := c6_dedup_by_digest
  have hp := hpair sha0 tdu [] "e1" f g (by decide) (by decide) rfl (by decide)
  exact ⟨hdet sha0 f g rfl, hskip sha0 tdu [qdup] "e1" f (by decide) (by decide),
    hp.1, hp.2⟩

/-! ## Blob-store extension: the store only grows during blob extraction -/

/-- `bs'` extends `bs`: the counter advanced, well-formedness is kept, and
every previously generated key resolves as before. -/
def Extends (bs bs' : BlobStore) : Prop :=
  bs.next ≤ bs'.next ∧ bs'.WF ∧
  ∀ i, i < bs.next → lookupE bs'.entries (mkKey i) = lookupE bs.entries (mkKey i)

theorem extends_refl {bs : BlobStore} (h : bs.WF) : Extends bs bs :=
  ⟨Nat.le_refl _, h, fun _ _ => rfl⟩

theorem extends_trans {bs1 bs2 bs3 : BlobStore}
    (h1 : Extends bs1 bs2) (h2 : Extends bs2 bs3) : Extends bs1 bs3 :=
  ⟨Nat.le_trans h1.1 h2.1, h2.2.1,
   fun i hi => (h2.2.2 i (Nat.lt_of_lt_of_le hi h1.1)).trans (h1.2.2 i hi)⟩

theorem storeImage_extends {bs : BlobStore} (h : bs.WF) (v : String) :
    Extends bs (storeImage bs v).2 :=
  ⟨Nat.le_succ _, storeImage_WF h v, fun _ hi =>
    storeImage_lookup_ne h v (fun hc => absurd (mkKey_inj hc) (Nat.ne_of_lt hi))⟩

/-- The full specification of `storeList` over a well-formed store: it
extends the store, keeps positions (an inline entry at position `j` becomes a
fresh reference, resolving to the original payload; any other entry passes
through), every reference in the output is fresh or was already in the input,
and with reference-free input the produced references are pairwise
distinct. -/
theorem storeList_spec : ∀ (us : List String) (bs : BlobStore), bs.WF →
    Extends bs (storeList bs us).2 ∧
    (storeList bs us).1.length = us.length ∧
    (∀ (j : Nat) (u : String), us[j]? = some u →
      (isBase64S u = true → ∃ i, bs.next ≤ i ∧ i < (storeList bs us).2.next ∧
        (storeList bs us).1[j]? = some (mkRefI i) ∧
        lookupE (storeList bs us).2.entries (mkKey i) = some u) ∧
      (isBase64S u = false → (storeList bs us).1[j]? = some u)) ∧
    (∀ v ∈ (storeList bs us).1, isRefS v = true →
      (∃ i, bs.next ≤ i ∧ i < (storeList bs us).2.next ∧ v = mkRefI i) ∨ v ∈ us) ∧
    ((∀ u ∈ us, isRefS u = false) → ((storeList bs us).1.filter isRefS).Nodup) := by
  intro us
  induction us with
  | nil =>
    intro bs hwf
    refine ⟨extends_refl hwf, rfl, ?_, ?_, ?_⟩
    · intro j u hj
      simp at hj
    · intro v hv
      simp [storeList] at hv
    · intro _
      exact List.nodup_nil
  | cons u us ih =>
    intro bs hwf
    cases hb : isBase64S u with
    | true =>
      have hred : storeList bs (u :: us) =
          ((storeImage bs u).1 :: (storeList (storeImage bs u).2 us).1,
           (storeList (storeImage bs u).2 us).2) := by
        simp [storeList, hb]
      have hwf1 : (storeImage bs u).2.WF := storeImage_WF hwf u
      have hext1 : Extends bs (storeImage bs u).2 := storeImage_extends hwf u
      obtain ⟨ihext, ihlen, ihpos, ihref, ihnd⟩ := ih (storeImage bs u).2 hwf1
      have hext : Extends bs (storeList bs (u :: us)).2 := by
        rw [hred]
        exact extends_trans hext1 ihext
      refine ⟨hext, ?_, ?_, ?_, ?_⟩
      · rw [hred]
        simp [ihlen]
      · intro j w hj
        cases j with
        | zero =>
          rw [List.getElem?_cons_zero] at hj
          cases hj
          constructor
          · intro _
            refine ⟨bs.next, Nat.le_refl _, ?_, ?_, ?_⟩
            · calc bs.next < (storeImage bs u).2.next := Nat.lt_succ_self _
                _ ≤ _ := by rw [hred]; exact ihext.1
            · rw [hred]
              rw [List.getElem?_cons_zero, storeImage_fst]
            · rw [hred]
              have := ihext.2.2 bs.next (Nat.lt_succ_self _)
              rw [this]
              exact storeImage_get_self hwf u
          · intro hc
            rw [hb] at hc
            cases hc
        | succ n =>
          rw [List.getElem?_cons_succ] at hj
          obtain ⟨hpos1, hpos2⟩ := ihpos n w hj
          constructor
          · intro hbw
            obtain ⟨i, hi1, hi2, hi3, hi4⟩ := hpos1 hbw
            refine ⟨i, Nat.le_trans (Nat.le_succ _) hi1, ?_, ?_, ?_⟩
            · rw [hred]; exact hi2
            · rw [hred, List.getElem?_cons_succ]; exact hi3
            · rw [hred]; exact hi4
          · intro hbw
            rw [hred, List.getElem?_cons_succ]
            exact hpos2 hbw
      · intro v hv href
        rw [hred] at hv
        rcases List.mem_cons.mp hv with h1 | h2
        · left
          refine ⟨bs.next, Nat.le_refl _, ?_, ?_⟩
          · calc bs.next < (storeImage bs u).2.next := Nat.lt_succ_self _
              _ ≤ _ := by rw [hred]; exact ihext.1
          · rw [h1, storeImage_fst]
        · rcases ihref v h2 href with ⟨i, hi1, hi2, hi3⟩ | hmem
          · left
            exact ⟨i, Nat.le_trans (Nat.le_succ _) hi1, by rw [hred]; exact hi2, hi3⟩
          · right
            exact List.mem_cons_of_mem _ hmem
      · intro hclean
        rw [hred]
        have hrefhead : isRefS (storeImage bs u).1 = true := by
          rw [storeImage_fst]
          exact isRefS_mkRefI _
        rw [List.filter_cons]
        rw [hrefhead]
        simp only [if_pos]
        refine List.Pairwise.cons ?_ (ihnd (fun w hw => hclean w (List.mem_cons_of_mem _ hw)))
        intro v hv
        have hvr : isRefS v = true := (List.mem_filter.mp hv).2
        have hvm : v ∈ (storeList (storeImage bs u).2 us).1 := (List.mem_filter.mp hv).1
        rcases ihref v hvm hvr with ⟨i, hi1, _, hi3⟩ | hmem
        · rw [storeImage_fst, hi3]
          rw [storeImage_next] at hi1
          intro hc
          have := mkRefI_inj hc
          omega
        · rw [hclean v (List.mem_cons_of_mem _ hmem)] at hvr
          cases hvr
    | false =>
      have hred : storeList bs (u :: us) =
          (u :: (storeList bs us).1, (storeList bs us).2) := by
        simp [storeList, hb]
      obtain ⟨ihext, ihlen, ihpos, ihref, ihnd⟩ := ih bs hwf
      refine ⟨by rw [hred]; exact ihext, by rw [hred]; simp [ihlen], ?_, ?_, ?_⟩
      · intro j w hj
        cases j with
        | zero =>
          rw [List.getElem?_cons_zero] at hj
          cases hj
          constructor
          · intro hc
            rw [hb] at hc
            cases hc
          · intro _
            rw [hred, List.getElem?_cons_zero]
        | succ n =>
          rw [List.getElem?_cons_succ] at hj
          obtain ⟨hpos1, hpos2⟩ := ihpos n w hj
          constructor
          · intro hbw
            obtain ⟨i, hi1, hi2, hi3, hi4⟩ := hpos1 hbw
            exact ⟨i, hi1, by rw [hred]; exact hi2,
              by rw [hred, List.getElem?_cons_succ]; exact hi3, by rw [hred]; exact hi4⟩
          · intro hbw
            rw [hred, List.getElem?_cons_succ]
            exact hpos2 hbw
      · intro v hv href
        rw [hred] at hv
        rcases List.mem_cons.mp hv with h1 | h2
        · right
          rw [h1]
          exact List.mem_cons_self _ _
        · rcases ihref v h2 href with ⟨i, hi1, hi2, hi3⟩ | hmem
          · left
            exact ⟨i, hi1, by rw [hred]; exact hi2, hi3⟩
          · right
            exact List.mem_cons_of_mem _ hmem
      · intro hclean
        rw [hred]
        rw [List.filter_cons]
        rw [hclean u (List.mem_cons_self _ _)]
        rw [if_neg (by simp)]
        exact ihnd (fun w hw => hclean w (List.mem_cons_of_mem _ hw))

/-! ## Lemmas about the aliasing model of `processImportedQuestions` -/

/-- The blob store after the question-image step of one
`processImportedQuestions` iteration. -/
def qhStep1 (bs : BlobStore) (q : QuestionH) : BlobStore :=
  match q.imageUrl with
  | some u => if isBase64S u then (storeImage bs u).2 else bs
  | none => bs

theorem qhStep1_extends {bs : BlobStore} (q : QuestionH) (h : bs.WF) :
    Extends bs (qhStep1 bs q) := by
  unfold qhStep1
  rcases q.imageUrl with _ | u
  · exact extends_refl h
  · show Extends bs (if isBase64S u = true then (storeImage bs u).2 else bs)
    by_cases hb : isBase64S u = true
    · rw [if_pos hb]
      exact storeImage_extends h u
    · rw [if_neg hb]
      exact extends_refl h

/-- The heap/store effect of one `processImportedQuestions` iteration. -/
theorem processImportedQH_snd (bs : BlobStore) (heap : List Answer) (q : QuestionH) :
    (processImportedQH bs heap q).2 =
      (match q.answer with
       | some i =>
         match heap[i]? with
         | some a =>
           match a.imageUrls with
           | some us =>
             (heap.set i { a with imageUrls := some (storeList (qhStep1 bs q) us).1 },
              (storeList (qhStep1 bs q) us).2)
           | none => (heap, qhStep1 bs q)
         | none => (heap, qhStep1 bs q)
       | none => (heap, qhStep1 bs q)) := by
  unfold processImportedQH qhStep1
  rcases hiu : q.imageUrl with _ | u
  · rcases hqa : q.answer with _ | i
    · simp [hiu, hqa]
    · rcases hhi : heap[i]? with _ | a
      · simp [hiu, hqa, hhi]
      · rcases hau : a.imageUrls with _ | us
        · simp [hiu, hqa, hhi, hau]
        · simp [hiu, hqa, hhi, hau]
  · cases hb : isBase64S u with
    | true =>
      rcases hqa : q.answer with _ | i
      · simp [hiu, hb, hqa]
      · rcases hhi : heap[i]? with _ | a
        · simp [hiu, hb, hqa, hhi]
        · rcases hau : a.imageUrls with _ | us
          · simp [hiu, hb, hqa, hhi, hau]
          · simp [hiu, hb, hqa, hhi, hau]
    | false =>
      rcases hqa : q.answer with _ | i
      · simp [hiu, hb, hqa]
      · rcases hhi : heap[i]? with _ | a
        · simp [hiu, hb, hqa, hhi]
        · rcases hau : a.imageUrls with _ | us
          · simp [hiu, hb, hqa, hhi, hau]
          · simp [hiu, hb, hqa, hhi, hau]

theorem processImportedQH_extends (bs : BlobStore) (heap : List Answer)
    (q : QuestionH) (h : bs.WF) : Extends bs (processImportedQH bs heap q).2.2 := by
  rw [processImportedQH_snd]
  have h1 := qhStep1_extends q h
  rcases hqa : q.answer with _ | i
  · simp only [hqa]
    exact h1
  · simp only [hqa]
    rcases hhi : heap[i]? with _ | a
    · simp only [hhi]
      exact h1
    · simp only [hhi]
      rcases hau : a.imageUrls with _ | us
      · simp only [hau]
        exact h1
      · simp only [hau]
        exact extends_trans h1 (storeList_spec us (qhStep1 bs q) h1.2.1).1

theorem processImportedQH_heap_ne (bs : BlobStore) (heap : List Answer)
    (q : QuestionH) {r : Nat} (h : q.answer ≠ some r) :
    ((processImportedQH bs heap q).2.1)[r]? = heap[r]? := by
  rw [processImportedQH_snd]
  rcases hqa : q.answer with _ | i
  · simp only [hqa]
  · simp only [hqa]
    have hir : i ≠ r := fun hc => h (hqa ▸ hc ▸ rfl)
    rcases hhi : heap[i]? with _ | a
    · simp only [hhi]
    · simp only [hhi]
      rcases hau : a.imageUrls with _ | us
      · simp only [hau]
      · simp only [hau]
        exact List.getElem?_set_ne hir

theorem processImportedQsH_extends (qs : List QuestionH) :
    ∀ (bs : BlobStore) (heap : List Answer), bs.WF →
    Extends bs (processImportedQsH bs heap qs).2.2 := by
  induction qs with
  | nil => intro bs heap h; exact extends_refl h
  | cons p ps ih =>
    intro bs heap h
    have h1 := processImportedQH_extends bs heap p h
    exact extends_trans h1 (ih _ _ h1.2.1)

theorem processImportedQsH_heap_ne (qs : List QuestionH) :
    ∀ (bs : BlobStore) (heap : List Answer) (r : Nat),
    (∀ q ∈ qs, q.answer ≠ some r) →
    ((processImportedQsH bs heap qs).2.1)[r]? = heap[r]? := by
  induction qs with
  | nil => intro bs heap r _; rfl
  | cons p ps ih =>
    intro bs heap r h
    show ((processImportedQsH (processImportedQH bs heap p).2.2
      (processImportedQH bs heap p).2.1 ps).2.1)[r]? = heap[r]?
    rw [ih _ _ r (fun q hq => h q (List.mem_cons_of_mem _ hq))]
    exact processImportedQH_heap_ne bs heap p (h p (List.mem_cons_self _ _))

/-- C10: the blob extraction run by `mergeData`/`replaceData` on the caller's
snapshot rewrites the inline answer images on the caller's own answer
objects: after `processImportedQuestions`, the answer object a snapshot
question points at (each parsed question owns its answer object, so the
references are pairwise distinct) holds the fresh blob references in place of
its inline data-URI payloads, and each fresh reference resolves to the
original payload. -/
theorem c10_import_mutates_snapshot (qs : List QuestionH) :
    ∀ (bs : BlobStore) (heap : List Answer), bs.WF →
    (qs.filterMap QuestionH.answer).Nodup →
    ∀ (q : QuestionH) (r : Nat) (a : Answer) (us : List String),
      q ∈ qs → q.answer = some r → heap[r]? = some a → a.imageUrls = some us →
      ∃ us' : List String,
        ((processImportedQsH bs heap qs).2.1)[r]? =
          some { a with imageUrls := some us' } ∧
        us'.length = us.length ∧
        (∀ (j : Nat) (u : String), us[j]? = some u →
          (isBase64S u = true → ∃ i : Nat, us'[j]? = some (mkRefI i) ∧
            getImage (processImportedQsH bs heap qs).2.2 (mkRefI i) = some u) ∧
          (isBase64S u = false → us'[j]? = some u)) := by
  induction qs with
  | nil =>
    intro bs heap _ _ q r a us hq
    cases hq
  | cons p ps ih =>
    intro bs heap hwf hnodup q r a us hq hqa hheap hurls
    have hstep := processImportedQH_extends bs heap p hwf
    have hshow : processImportedQsH bs heap (p :: ps) =
        ((processImportedQH bs heap p).1 ::
          (processImportedQsH (processImportedQH bs heap p).2.2
            (processImportedQH bs heap p).2.1 ps).1,
         (processImportedQsH (processImportedQH bs heap p).2.2
            (processImportedQH bs heap p).2.1 ps).2) := rfl
    rcases List.mem_cons.mp hq with hqp | hqps
    · subst hqp
      have hr_notin : ∀ q' ∈ ps, q'.answer ≠ some r := by
        intro q' hq' hc
        have hfm1 : (q :: ps).filterMap QuestionH.answer =
            r :: ps.filterMap QuestionH.answer := by
          rw [List.filterMap_cons, hqa]
        rw [hfm1] at hnodup
        exact (List.nodup_cons.mp hnodup).1
          (List.mem_filterMap.mpr ⟨q', hq', hc⟩)
      have hq1 : (qhStep1 bs q).WF := (qhStep1_extends q hwf).2.1
      obtain ⟨slext, sllen, slpos, _, _⟩ := storeList_spec us (qhStep1 bs q) hq1
      have hsnd : (processImportedQH bs heap q).2 =
          (heap.set r { a with imageUrls := some (storeList (qhStep1 bs q) us).1 },
           (storeList (qhStep1 bs q) us).2) := by
        rw [processImportedQH_snd]
        simp only [hqa, hheap, hurls]
      have hrlen : r < heap.length := by
        rcases List.getElem?_eq_some_iff.mp hheap with ⟨hl, _⟩
        exact hl
      refine ⟨(storeList (qhStep1 bs q) us).1, ?_, sllen, ?_⟩
      · rw [hshow]
        show ((processImportedQsH (processImportedQH bs heap q).2.2
          (processImportedQH bs heap q).2.1 ps).2.1)[r]? = _
        rw [processImportedQsH_heap_ne ps _ _ r hr_notin]
        rw [hsnd]
        exact List.getElem?_set_self hrlen
      · intro j u hj
        obtain ⟨hp1, hp2⟩ := slpos j u hj
        constructor
        · intro hb
          obtain ⟨i, _, hi2, hi3, hi4⟩ := hp1 hb
          refine ⟨i, hi3, ?_⟩
          rw [hshow]
          show getImage (processImportedQsH (processImportedQH bs heap q).2.2
            (processImportedQH bs heap q).2.1 ps).2.2 (mkRefI i) = some u
          rw [getImage_mkRefI]
          have hext2 := processImportedQsH_extends ps (processImportedQH bs heap q).2.2
            (processImportedQH bs heap q).2.1 (by rw [hsnd]; exact slext.2.1)
          have := hext2.2.2 i (by rw [hsnd]; exact hi2)
          rw [this, hsnd]
          exact hi4
        · exact hp2
    · have hne : p.answer ≠ some r := by
        intro hc
        have hfm2 : r ∈ ps.filterMap QuestionH.answer :=
          List.mem_filterMap.mpr ⟨q, hqps, hqa⟩
        rw [List.filterMap_cons, hc] at hnodup
        exact (List.nodup_cons.mp hnodup).1 hfm2
      have hheap1 : ((processImportedQH bs heap p).2.1)[r]? = some a := by
        rw [processImportedQH_heap_ne bs heap p hne]
        exact hheap
      have hnodup1 : (ps.filterMap QuestionH.answer).Nodup := by
        rw [List.filterMap_cons] at hnodup
        rcases hpa : p.answer with _ | rp
        · rw [hpa] at hnodup
          exact hnodup
        · rw [hpa] at hnodup
          exact (List.nodup_cons.mp hnodup).2
      have := ih (processImportedQH bs heap p).2.2 (processImportedQH bs heap p).2.1
        hstep.2.1 hnodup1 q r a us hqps hqa hheap1 hurls
      rw [hshow]
      exact this

/-- C10 witness: a one-question snapshot whose answer holds one inline
data URI; after the blob extraction the caller's heap cell for that answer
carries a fresh reference resolving to the original payload. -/
theorem c10_import_mutates_snapshot_witness :
    (let a : Answer := ⟨some "ans", some ["data:image/png;base64,CC"]⟩
     let q : QuestionH := ⟨"q1", "e1", "image", none, some 0⟩
     let bs : BlobStore := ⟨[], 0⟩
     ∃ us' : List String,
       ((processImportedQsH bs [a] [q]).2.1)[0]? =
         some { a with imageUrls := some us' } ∧
       us'.length = 1 ∧
       ∃ i : Nat, us'[0]? = some (mkRefI i) ∧
         getImage (processImportedQsH bs [a] [q]).2.2 (mkRefI i) =
           some "data:image/png;base64,CC") := by
  intro a q bs
  obtain ⟨us', h1, h2, h3⟩ := c10_import_mutates_snapshot [q] bs [a]
    (by intro p hp; simp [bs] at hp) (by decide)
    q 0 a ["data:image/png;base64,CC"]
    (List.mem_singleton.mpr rfl) rfl rfl rfl
  obtain ⟨h4, _⟩ := h3 0 "data:image/png;base64,CC" rfl
  obtain ⟨i, h5, h6⟩ := h4 (by decide)
  exact ⟨us', h1, h2, i, h5, h6⟩

/-! ## Support for the blob-liveness invariant -/

theorem find?_split {α : Type} {p : α → Bool} {l : List α} {x : α}
    (h : l.find? p = some x) :
    ∃ l1 l2, l = l1 ++ x :: l2 ∧ ∀ y ∈ l1, p y = false := by
  induction l with
  | nil => cases h
  | cons a as ih =>
    cases hp : p a with
    | true =>
      rw [List.find?_cons_of_pos _ hp] at h
      cases h
      exact ⟨[], as, rfl, by intro y hy; cases hy⟩
    | false =>
      rw [List.find?_cons_of_neg _ (by simp [hp])] at h
      obtain ⟨l1, l2, heq, hfalse⟩ := ih h
      refine ⟨a :: l1, l2, by rw [heq]; rfl, ?_⟩
      intro y hy
      rcases List.mem_cons.mp hy with h1 | h2
      · subst h1; exact hp
      · exact hfalse y h2

theorem disjoint_of_indexed {A B : List String} {n : Nat}
    (hA : ∀ v ∈ A, ∃ i, i < n ∧ v = mkRefI i)
    (hB : ∀ v ∈ B, ∃ i, n ≤ i ∧ v = mkRefI i) : List.Disjoint A B := by
  rw [List.disjoint_left]
  intro a ha hb
  obtain ⟨i, hi, rfl⟩ := hA a ha
  obtain ⟨j, hj, hEq⟩ := hB _ hb
  have := mkRefI_inj hEq
  omega

/-- The (zero- or one-element) question-image url list. -/
def iuList (q : Question) : List String :=
  match q.imageUrl with | some u => [u] | none => []

theorem questionUrls_eq (q : Question) : questionUrls q = iuList q ++ answerUrls q := rfl

theorem qik_eq (q : Question) : questionImageKeys q =
    (iuList q).filter isRefS ++ (answerUrls q).filter isRefS := by
  unfold questionImageKeys
  rw [questionUrls_eq, List.filter_append]

/-- The url list of an `addQuestions` payload record. -/
def qdUrls (q : QuestionData) : List String :=
  (match q.imageUrl with | some u => [u] | none => []) ++
  (match q.answer with | some a => a.imageUrls.getD [] | none => [])

theorem questionUrls_mkQuestion (idv now : String) (q : QuestionData) :
    questionUrls (mkQuestion idv now q) = qdUrls q := rfl

theorem zipWith_mk_ids (now : String) : ∀ (ids : List String) (ps : List QuestionData),
    ids.length = ps.length →
    (List.zipWith (fun idv q => mkQuestion idv now q) ids ps).map Question.id = ids := by
  intro ids
  induction ids with
  | nil => intro ps _; rfl
  | cons i is ih =>
    intro ps h
    cases ps with
    | nil => cases h
    | cons p pp =>
      simp only [List.zipWith_cons_cons, List.map_cons]
      rw [ih pp (by simpa using h)]
      rfl

theorem zipWith_mk_refs (now : String) : ∀ (ids : List String) (ps : List QuestionData),
    ids.length = ps.length →
    (List.zipWith (fun idv q => mkQuestion idv now q) ids ps).flatMap questionImageKeys
      = ps.flatMap (fun q => (qdUrls q).filter isRefS) := by
  intro ids
  induction ids with
  | nil =>
    intro ps h
    have hnil : ps = [] := List.eq_nil_of_length_eq_zero h.symm
    subst hnil
    rfl
  | cons i is ih =>
    intro ps h
    cases ps with
    | nil => cases h
    | cons p pp =>
      simp only [List.zipWith_cons_cons, List.flatMap_cons]
      rw [ih pp (by simpa using h)]
      rfl

theorem processQD_eq_base64 (bs : BlobStore) (q : QuestionData) {u : String}
    (hiu : q.imageUrl = some u) (hb : isBase64S u = true) :
    processQD bs q = ({ q with imageUrl := some (mkRefI bs.next) }, (storeImage bs u).2) := by
  unfold processQD
  rw [hiu]
  simp [hb, storeImage_fst]

theorem processQD_eq_other (bs : BlobStore) (q : QuestionData)
    (h : isBase64O q.imageUrl = false) : processQD bs q = (q, bs) := by
  unfold processQD
  rcases hiu : q.imageUrl with _ | u
  · rfl
  · unfold isBase64O at h
    rw [hiu] at h
    have hbf : isBase64S u = false := by simpa using h
    simp [hbf]

/-- References produced by `storeList` on reference-free input are fresh and
resolve in the resulting store. -/
theorem storeList_clean_refs {us : List String} {bs : BlobStore} (hwf : bs.WF)
    (hclean : ∀ u ∈ us, isRefS u = false) :
    ∀ v ∈ (storeList bs us).1, isRefS v = true →
      ∃ i, bs.next ≤ i ∧ i < (storeList bs us).2.next ∧ v = mkRefI i ∧
        (lookupE (storeList bs us).2.entries (mkKey i)).isSome = true := by
  obtain ⟨_, hlen, hpos, _, _⟩ := storeList_spec us bs hwf
  intro v hv href
  obtain ⟨j, hj⟩ := List.mem_iff_getElem?.mp hv
  have hjlt : j < us.length := by
    rcases List.getElem?_eq_some_iff.mp hj with ⟨hl, _⟩
    rw [hlen] at hl
    exact hl
  have hus : us[j]? = some us[j] := List.getElem?_eq_getElem hjlt
  obtain ⟨hp1, hp2⟩ := hpos j us[j] hus
  cases hb : isBase64S us[j] with
  | true =>
    obtain ⟨i, hi1, hi2, hi3, hi4⟩ := hp1 hb
    rw [hj] at hi3
    have hv3 : v = mkRefI i := by injection hi3
    exact ⟨i, hi1, hi2, hv3, by rw [hi4]; rfl⟩
  | false =>
    have := hp2 hb
    rw [hj] at this
    have hv2 : v = us[j] := by injection this
    rw [hv2] at href
    rw [hclean us[j] (List.getElem_mem hjlt)] at href
    cases href

/-- One question of `processImportedQuestions`, on reference-free input:
the store only grows and the processed question's references are fresh,
pairwise distinct, and resolve in the resulting store. -/
theorem iuList_filter_nodup (q : Question) : ((iuList q).filter isRefS).Nodup := by
  unfold iuList
  rcases q.imageUrl with _ | u
  · exact List.nodup_nil
  · rw [List.filter_cons]
    cases href : isRefS u
    · rw [if_neg (by simp)]
      exact List.nodup_nil
    · rw [if_pos rfl]
      exact List.nodup_cons.mpr ⟨by simp, List.nodup_nil⟩

theorem processImportedQ_clean (bs : BlobStore) (q : Question) (hwf : bs.WF)
    (hclean : ∀ u ∈ questionUrls q, isRefS u = false) :
    Extends bs (processImportedQ bs q).2 ∧
    (∀ v ∈ questionImageKeys (processImportedQ bs q).1,
      ∃ i, bs.next ≤ i ∧ i < (processImportedQ bs q).2.next ∧ v = mkRefI i ∧
        (lookupE (processImportedQ bs q).2.entries (mkKey i)).isSome = true) ∧
    (questionImageKeys (processImportedQ bs q).1).Nodup := by
  have hcleanIu : ∀ u ∈ iuList q, isRefS u = false := by
    intro u hu
    exact hclean u (List.mem_append_left _ hu)
  have hcleanAns : ∀ u ∈ answerUrls q, isRefS u = false := by
    intro u hu
    exact hclean u (List.mem_append_right _ hu)
  have step1 : ∃ (q1 : Question) (bs1 : BlobStore),
      (processImportedQ bs q) = (match q1.answer with
        | some a =>
          match a.imageUrls with
          | some us =>
            (({ q1 with answer := some { a with imageUrls := some (storeList bs1 us).1 } } : Question),
             (storeList bs1 us).2)
          | none => (q1, bs1)
        | none => (q1, bs1)) ∧
      Extends bs bs1 ∧ q1.answer = q.answer ∧
      (∀ v ∈ (iuList q1).filter isRefS,
        v = mkRefI bs.next ∧ bs.next < bs1.next ∧
        (lookupE bs1.entries (mkKey bs.next)).isSome = true) := by
    unfold processImportedQ
    rcases hiu : q.imageUrl with _ | u
    · refine ⟨q, bs, by simp [hiu], extends_refl hwf, rfl, ?_⟩
      intro v hv
      unfold iuList at hv
      rw [hiu] at hv
      simp at hv
    · by_cases hb : isBase64S u = true
      · refine ⟨{ q with imageUrl := some (storeImage bs u).1 }, (storeImage bs u).2,
          by simp [hiu, hb], storeImage_extends hwf u, rfl, ?_⟩
        intro v hv
        have hil : iuList ({ q with imageUrl := some (storeImage bs u).1 } : Question)
            = [mkRefI bs.next] := by
          unfold iuList
          rw [show ({ q with imageUrl := some (storeImage bs u).1 } : Question).imageUrl
            = some (storeImage bs u).1 from rfl, storeImage_fst]
        rw [hil, List.filter_cons] at hv
        rw [isRefS_mkRefI] at hv
        rw [if_pos rfl] at hv
        rcases List.mem_cons.mp hv with h1 | h2
        · subst h1
          refine ⟨rfl, Nat.lt_succ_self _, ?_⟩
          rw [storeImage_get_self hwf u]
          rfl
        · simp at h2
      · have hbf : isBase64S u = false := by simpa using hb
        refine ⟨q, bs, by simp [hiu, hbf], extends_refl hwf, rfl, ?_⟩
        intro v hv
        unfold iuList at hv
        rw [hiu, List.filter_cons] at hv
        rw [hcleanIu u (by unfold iuList; rw [hiu]; exact List.mem_cons_self _ _)] at hv
        rw [if_neg (by simp)] at hv
        simp at hv
  obtain ⟨q1, bs1, heq, hext1, hans1, hiu1⟩ := step1
  have hansnil : ∀ (hpre : (answerUrls q1).filter isRefS = []),
      (∀ v ∈ questionImageKeys q1,
        ∃ i, bs.next ≤ i ∧ i < bs1.next ∧ v = mkRefI i ∧
          (lookupE bs1.entries (mkKey i)).isSome = true) ∧
      (questionImageKeys q1).Nodup := by
    intro hpre
    constructor
    · intro v hv
      rw [qik_eq] at hv
      rcases List.mem_append.mp hv with h1 | h2
      · obtain ⟨hv1, hlt, hlook⟩ := hiu1 v h1
        exact ⟨bs.next, Nat.le_refl _, hlt, hv1, hlook⟩
      · rw [hpre] at h2
        cases h2
    · rw [qik_eq, hpre, List.append_nil]
      exact iuList_filter_nodup q1
  rcases hqa : q1.answer with _ | a
  · rw [heq]
    simp only [hqa]
    have h0 : (answerUrls q1).filter isRefS = [] := by
      unfold answerUrls
      rw [hqa]
      rfl
    exact ⟨hext1, (hansnil h0).1, (hansnil h0).2⟩
  · rcases hau : a.imageUrls with _ | us
    · rw [heq]
      simp only [hqa, hau]
      have h0 : (answerUrls q1).filter isRefS = [] := by
        rw [List.filter_eq_nil_iff]
        intro u hu
        unfold answerUrls at hu
        simp only [hqa] at hu
        rw [hau] at hu
        simp at hu
      exact ⟨hext1, (hansnil h0).1, (hansnil h0).2⟩
    · have hususe : us = answerUrls q := by
        unfold answerUrls
        rw [← hans1]
        simp only [hqa]
        rw [hau]
        rfl
      have hcleanUs : ∀ u ∈ us, isRefS u = false := by
        rw [hususe]
        exact hcleanAns
      have hwf1 : bs1.WF := hext1.2.1
      obtain ⟨slext, sllen, slpos, slref, slnd⟩ := storeList_spec us bs1 hwf1
      have hfresh := storeList_clean_refs hwf1 hcleanUs
      rw [heq]
      simp only [hqa, hau]
      have hq2iu : iuList ({ q1 with answer := some { a with imageUrls := some (storeList bs1 us).1 } } : Question) = iuList q1 := rfl
      have hq2ans : answerUrls ({ q1 with answer := some { a with imageUrls := some (storeList bs1 us).1 } } : Question) = (storeList bs1 us).1 := rfl
      refine ⟨extends_trans hext1 slext, ?_, ?_⟩
      · intro v hv
        rw [qik_eq, hq2iu, hq2ans] at hv
        rcases List.mem_append.mp hv with h1 | h2
        · obtain ⟨hv1, hlt, hlook⟩ := hiu1 v h1
          refine ⟨bs.next, Nat.le_refl _, Nat.lt_of_lt_of_le hlt slext.1, hv1, ?_⟩
          rw [slext.2.2 bs.next hlt]
          exact hlook
        · obtain ⟨i, hi1, hi2, hi3, hi4⟩ := hfresh v (List.mem_filter.mp h2).1
            (List.mem_filter.mp h2).2
          exact ⟨i, Nat.le_trans hext1.1 hi1, hi2, hi3, hi4⟩
      · rw [qik_eq, hq2iu, hq2ans]
        rw [List.nodup_append]
        refine ⟨iuList_filter_nodup q1, slnd hcleanUs, ?_⟩
        refine @disjoint_of_indexed _ _ bs1.next ?_ ?_
        · intro v hv1
          obtain ⟨hv2, hlt, _⟩ := hiu1 v hv1
          exact ⟨bs.next, hlt, hv2⟩
        · intro v hv2
          obtain ⟨i, hi1, _, hi3, _⟩ := hfresh v (List.mem_filter.mp hv2).1
            (List.mem_filter.mp hv2).2
          exact ⟨i, hi1, hi3⟩

theorem processImportedQs_spec (qs : List Question) : ∀ bs : BlobStore, bs.WF →
    (∀ q ∈ qs, ∀ u ∈ questionUrls q, isRefS u = false) →
    Extends bs (processImportedQs bs qs).2 ∧
    (∀ v ∈ (processImportedQs bs qs).1.flatMap questionImageKeys,
      ∃ i, bs.next ≤ i ∧ i < (processImportedQs bs qs).2.next ∧ v = mkRefI i ∧
        (lookupE (processImportedQs bs qs).2.entries (mkKey i)).isSome = true) ∧
    ((processImportedQs bs qs).1.flatMap questionImageKeys).Nodup := by
  induction qs with
  | nil =>
    intro bs hwf _
    refine ⟨extends_refl hwf, ?_, ?_⟩
    · intro v hv
      simp [processImportedQs] at hv
    · simp [processImportedQs]
  | cons q qs ih =>
    intro bs hwf hclean
    obtain ⟨hext1, hrefs1, hnd1⟩ :=
      processImportedQ_clean bs q hwf (hclean q (List.mem_cons_self _ _))
    obtain ⟨ihext, ihrefs, ihnd⟩ := ih (processImportedQ bs q).2 hext1.2.1
      (fun q' hq' => hclean q' (List.mem_cons_of_mem _ hq'))
    have hshow : processImportedQs bs (q :: qs) =
        ((processImportedQ bs q).1 ::
          (processImportedQs (processImportedQ bs q).2 qs).1,
         (processImportedQs (processImportedQ bs q).2 qs).2) := rfl
    refine ⟨?_, ?_, ?_⟩
    · rw [hshow]
      exact extends_trans hext1 ihext
    · intro v hv
      rw [hshow, List.flatMap_cons] at hv
      rw [hshow]
      rcases List.mem_append.mp hv with h1 | h2
      · obtain ⟨i, hi1, hi2, hi3, hi4⟩ := hrefs1 v h1
        refine ⟨i, hi1, Nat.lt_of_lt_of_le hi2 ihext.1, hi3, ?_⟩
        rw [ihext.2.2 i hi2]
        exact hi4
      · obtain ⟨i, hi1, hi2, hi3, hi4⟩ := ihrefs v h2
        exact ⟨i, Nat.le_trans hext1.1 hi1, hi2, hi3, hi4⟩
    · rw [hshow, List.flatMap_cons, List.nodup_append]
      refine ⟨hnd1, ihnd, ?_⟩
      refine @disjoint_of_indexed _ _ (processImportedQ bs q).2.next ?_ ?_
      · intro v hv
        obtain ⟨i, _, hi2, hi3, _⟩ := hrefs1 v hv
        exact ⟨i, hi2, hi3⟩
      · intro v hv
        obtain ⟨i, hi1, _, hi3, _⟩ := ihrefs v hv
        exact ⟨i, hi1, hi3⟩

def qdIu (q : QuestionData) : List String :=
  match q.imageUrl with | some u => [u] | none => []

def qdAns (q : QuestionData) : List String :=
  match q.answer with | some a => a.imageUrls.getD [] | none => []

theorem qdUrls_eq (q : QuestionData) : qdUrls q = qdIu q ++ qdAns q := rfl

/-- The per-question body of `addQuestions` on reference-free input: the
store only grows and the resulting question's references are exactly the
fresh reference of a migrated inline image (if any), resolving to the
original payload. -/
theorem processQD_clean (bs : BlobStore) (q : QuestionData) (hwf : bs.WF)
    (hclean : ∀ u ∈ qdUrls q, isRefS u = false) :
    Extends bs (processQD bs q).2 ∧
    (∀ v ∈ (qdUrls (processQD bs q).1).filter isRefS,
      ∃ i, bs.next ≤ i ∧ i < (processQD bs q).2.next ∧ v = mkRefI i ∧
        (lookupE (processQD bs q).2.entries (mkKey i)).isSome = true) ∧
    ((qdUrls (processQD bs q).1).filter isRefS).Nodup := by
  have hcleanAns : ∀ u ∈ qdAns q, isRefS u = false := by
    intro u hu
    apply hclean
    rw [qdUrls_eq]
    exact List.mem_append_right _ hu
  by_cases hb : isBase64O q.imageUrl = true
  · rcases hiu : q.imageUrl with _ | d
    · rw [hiu] at hb
      cases hb
    · rw [hiu] at hb
      have hbd : isBase64S d = true := hb
      rw [processQD_eq_base64 bs q hiu hbd]
      have hurls : qdUrls ({ q with imageUrl := some (mkRefI bs.next) } : QuestionData)
          = mkRefI bs.next :: qdAns q := by
        rw [qdUrls_eq]
        rfl
      have hfilter : (qdUrls ({ q with imageUrl := some (mkRefI bs.next) } : QuestionData)).filter isRefS
          = [mkRefI bs.next] := by
        rw [hurls, List.filter_cons, isRefS_mkRefI, if_pos rfl]
        rw [List.filter_eq_nil_iff.mpr (by
          intro u hu
          rw [hcleanAns u hu]
          simp)]
      refine ⟨storeImage_extends hwf d, ?_, ?_⟩
      · intro v hv
        rw [hfilter] at hv
        rcases List.mem_cons.mp hv with h1 | h2
        · subst h1
          refine ⟨bs.next, Nat.le_refl _, Nat.lt_succ_self _, rfl, ?_⟩
          rw [storeImage_get_self hwf d]
          rfl
        · cases h2
      · rw [hfilter]
        exact List.nodup_cons.mpr ⟨by simp, List.nodup_nil⟩
  · have hbf : isBase64O q.imageUrl = false := by simpa using hb
    rw [processQD_eq_other bs q hbf]
    have hfilter : (qdUrls q).filter isRefS = [] := by
      rw [List.filter_eq_nil_iff]
      intro u hu
      rw [hclean u hu]
      simp
    refine ⟨extends_refl hwf, ?_, ?_⟩
    · intro v hv
      rw [hfilter] at hv
      cases hv
    · rw [hfilter]
      exact List.nodup_nil

theorem processQDs_spec (qs : List QuestionData) : ∀ bs : BlobStore, bs.WF →
    (∀ q ∈ qs, ∀ u ∈ qdUrls q, isRefS u = false) →
    Extends bs (processQDs bs qs).2 ∧
    (processQDs bs qs).1.length = qs.length ∧
    (∀ v ∈ (processQDs bs qs).1.flatMap (fun q' => (qdUrls q').filter isRefS),
      ∃ i, bs.next ≤ i ∧ i < (processQDs bs qs).2.next ∧ v = mkRefI i ∧
        (lookupE (processQDs bs qs).2.entries (mkKey i)).isSome = true) ∧
    ((processQDs bs qs).1.flatMap (fun q' => (qdUrls q').filter isRefS)).Nodup ∧
    (∀ (k : Nat) (q : QuestionData) (d : String), qs[k]? = some q →
      q.imageUrl = some d → isBase64S d = true →
      ∃ i, i < (processQDs bs qs).2.next ∧
        (processQDs bs qs).1[k]? = some { q with imageUrl := some (mkRefI i) } ∧
        lookupE (processQDs bs qs).2.entries (mkKey i) = some d) := by
  induction qs with
  | nil =>
    intro bs hwf _
    refine ⟨extends_refl hwf, rfl, ?_, ?_, ?_⟩
    · intro v hv
      simp [processQDs] at hv
    · simp [processQDs]
    · intro k q d hk
      simp at hk
  | cons q qs ih =>
    intro bs hwf hclean
    obtain ⟨hext1, hrefs1, hnd1⟩ :=
      processQD_clean bs q hwf (hclean q (List.mem_cons_self _ _))
    obtain ⟨ihext, ihlen, ihrefs, ihnd, ihpos⟩ := ih (processQD bs q).2 hext1.2.1
      (fun q' hq' => hclean q' (List.mem_cons_of_mem _ hq'))
    have hshow : processQDs bs (q :: qs) =
        ((processQD bs q).1 :: (processQDs (processQD bs q).2 qs).1,
         (processQDs (processQD bs q).2 qs).2) := rfl
    refine ⟨?_, ?_, ?_, ?_, ?_⟩
    · rw [hshow]
      exact extends_trans hext1 ihext
    · rw [hshow]
      simp [ihlen]
    · intro v hv
      rw [hshow, List.flatMap_cons] at hv
      rw [hshow]
      rcases List.mem_append.mp hv with h1 | h2
      · obtain ⟨i, hi1, hi2, hi3, hi4⟩ := hrefs1 v h1
        refine ⟨i, hi1, Nat.lt_of_lt_of_le hi2 ihext.1, hi3, ?_⟩
        rw [ihext.2.2 i hi2]
        exact hi4
      · obtain ⟨i, hi1, hi2, hi3, hi4⟩ := ihrefs v h2
        exact ⟨i, Nat.le_trans hext1.1 hi1, hi2, hi3, hi4⟩
    · rw [hshow, List.flatMap_cons, List.nodup_append]
      refine ⟨hnd1, ihnd, ?_⟩
      refine @disjoint_of_indexed _ _ (processQD bs q).2.next ?_ ?_
      · intro v hv
        obtain ⟨i, _, hi2, hi3, _⟩ := hrefs1 v hv
        exact ⟨i, hi2, hi3⟩
      · intro v hv
        obtain ⟨i, hi1, _, hi3, _⟩ := ihrefs v hv
        exact ⟨i, hi1, hi3⟩
    · intro k p d hk hpiu hpb
      cases k with
      | zero =>
        rw [List.getElem?_cons_zero] at hk
        cases hk
        have hlt : bs.next < (processQD bs q).2.next := by
          rw [processQD_eq_base64 bs q hpiu hpb]
          exact Nat.lt_succ_self _
        refine ⟨bs.next, ?_, ?_, ?_⟩
        · rw [hshow]
          exact Nat.lt_of_lt_of_le hlt ihext.1
        · rw [hshow, List.getElem?_cons_zero]
          rw [processQD_eq_base64 bs q hpiu hpb]
        · rw [hshow]
          rw [ihext.2.2 bs.next hlt]
          rw [processQD_eq_base64 bs q hpiu hpb]
          exact storeImage_get_self hwf d
      | succ n =>
        rw [List.getElem?_cons_succ] at hk
        obtain ⟨i, hi1, hi2, hi3⟩ := ihpos n p d hk hpiu hpb
        refine ⟨i, ?_, ?_, ?_⟩
        · rw [hshow]
          exact hi1
        · rw [hshow, List.getElem?_cons_succ]
          exact hi2
        · rw [hshow]
          exact hi3

/-! ## The inductive invariant -/

/-- Invariant tying a question collection to the blob store: the store is
well-formed, question ids are pairwise distinct, the blob references held by
the questions are pairwise distinct, and each one is a generated key below
the fresh-key counter that resolves in the store. -/
def InvQ (qs : List Question) (bs : BlobStore) : Prop :=
  bs.WF ∧ (qs.map Question.id).Nodup ∧ (qs.flatMap questionImageKeys).Nodup ∧
  (∀ v ∈ qs.flatMap questionImageKeys, ∃ i, i < bs.next ∧ v = mkRefI i ∧
    (lookupE bs.entries (mkKey i)).isSome = true)

def Inv (st : AppState) (bs : BlobStore) : Prop := InvQ st.questions bs

/-- An `addQuestions` payload carries images only inline (no blob refs). -/
def cleanQD (q : QuestionData) : Prop := ∀ u ∈ qdUrls q, isRefS u = false

/-- An imported snapshot question carries images only inline. -/
def cleanQ (q : Question) : Prop := ∀ u ∈ questionUrls q, isRefS u = false

/-- An update payload carries images only inline. -/
def cleanPatch (p : QuestionPatch) : Prop :=
  (∀ u, p.imageUrl = some u → isRefS u = false) ∧
  (∀ a, p.answer = some a → ∀ us, a.imageUrls = some us → ∀ u ∈ us, isRefS u = false)

theorem removedKeys_eq (l : List Question) :
    (l.flatMap questionUrls).filter isRefS = l.flatMap questionImageKeys := by
  rw [List.filter_flatMap]
  rfl

theorem sublist_flatMap {α β : Type} {l1 l2 : List α} (h : l1.Sublist l2)
    (f : α → List β) : (l1.flatMap f).Sublist (l2.flatMap f) := by
  induction h with
  | slnil => exact List.Sublist.refl _
  | cons a _ ih =>
    rw [List.flatMap_cons]
    exact ih.trans (List.sublist_append_right _ _)
  | cons₂ a _ ih =>
    rw [List.flatMap_cons, List.flatMap_cons]
    exact (List.Sublist.refl (f a)).append ih

theorem filter_refs_disjoint {qs : List Question}
    (hnd : (qs.flatMap questionImageKeys).Nodup) (p q' : Question → Bool)
    (hops : ∀ q ∈ qs, ¬(p q = true ∧ q' q = true)) :
    List.Disjoint ((qs.filter p).flatMap questionImageKeys)
                  ((qs.filter q').flatMap questionImageKeys) := by
  rw [List.disjoint_left]
  intro v hv1 hv2
  obtain ⟨q1, hq1, hv1m⟩ := List.mem_flatMap.mp hv1
  obtain ⟨q2, hq2, hv2m⟩ := List.mem_flatMap.mp hv2
  have h1 := List.mem_filter.mp hq1
  have h2 := List.mem_filter.mp hq2
  have hneq : q1 ≠ q2 := by
    intro hc
    exact hops q1 h1.1 ⟨h1.2, by rw [hc]; exact h2.2⟩
  obtain ⟨_, hpair⟩ := List.nodup_flatMap.mp hnd
  have hsymm : Symmetric (Function.onFun List.Disjoint questionImageKeys) :=
    fun a b hab => List.Disjoint.symm hab
  have hdisj := hpair.forall hsymm h1.1 h2.1 hneq
  exact hdisj hv1m hv2m

theorem delete_preserves_other {bs : BlobStore} {keys : List String} {i : Nat}
    (hkeys : ∀ d ∈ keys, ∃ j, d = mkRefI j ∧ j ≠ i) :
    lookupE (deleteImages bs keys).entries (mkKey i) = lookupE bs.entries (mkKey i) := by
  apply deleteImages_lookup_notmem
  intro u hu
  obtain ⟨j, rfl, hji⟩ := hkeys u hu
  rw [stripIdb_mkRefI]
  intro hc
  exact hji (mkKey_inj hc)

/-- Deleting a subset of the questions, together with the blob deletion of
exactly their references, preserves the invariant. -/
theorem invQ_delete {qs : List Question} {bs : BlobStore} (h : InvQ qs bs)
    (p : Question → Bool) :
    InvQ (qs.filter (fun q => !(p q)))
      (if 0 < (((qs.filter p).flatMap questionUrls).filter isRefS).length
       then deleteImages bs (((qs.filter p).flatMap questionUrls).filter isRefS)
       else bs) := by
  obtain ⟨hwf, hids, hnd, hlive⟩ := h
  have hsubq : (qs.filter (fun q => !(p q))).Sublist qs := List.filter_sublist qs
  have hsubrefs : ((qs.filter (fun q => !(p q))).flatMap questionImageKeys).Sublist
      (qs.flatMap questionImageKeys) := sublist_flatMap hsubq _
  have hdisj := filter_refs_disjoint hnd (fun q => !(p q)) p
    (by intro q _ hcontra
        rcases hcontra with ⟨h1, h2⟩
        simp [h2] at h1)
  have hkeyseq : ((qs.filter p).flatMap questionUrls).filter isRefS
      = (qs.filter p).flatMap questionImageKeys := removedKeys_eq _
  by_cases hlen : 0 < (((qs.filter p).flatMap questionUrls).filter isRefS).length
  · rw [if_pos hlen]
    refine ⟨deleteImages_WF hwf _, ?_, ?_, ?_⟩
    · exact ((hsubq.map Question.id).nodup hids)
    · exact hsubrefs.nodup hnd
    · intro v hv
      obtain ⟨i, hi, hvi, hlook⟩ := hlive v (hsubrefs.mem hv)
      refine ⟨i, by rw [deleteImages_next]; exact hi, hvi, ?_⟩
      rw [delete_preserves_other]
      · exact hlook
      · intro d hd
        rw [hkeyseq] at hd
        obtain ⟨j, _, hdj, _⟩ := hlive d (sublist_flatMap (List.filter_sublist qs) _ |>.mem hd)
        refine ⟨j, hdj, ?_⟩
        intro hc
        subst hc
        have : d = v := by rw [hdj, hvi]
        subst this
        exact hdisj hv hd
  · rw [if_neg hlen]
    refine ⟨hwf, (hsubq.map Question.id).nodup hids, hsubrefs.nodup hnd, ?_⟩
    intro v hv
    exact hlive v (hsubrefs.mem hv)

theorem filter_of_find_unique {qs : List Question} {qid : String} {q0 : Question}
    (hfind : qs.find? (fun q => q.id == qid) = some q0)
    (hnd : (qs.map Question.id).Nodup) :
    qs.filter (fun q => q.id == qid) = [q0] := by
  obtain ⟨l1, l2, heq, hl1⟩ := find?_split hfind
  have hq0 : (q0.id == qid) = true := by
    simpa using @List.find?_some _ (fun q => q.id == qid) q0 qs hfind
  have hq0id : q0.id = qid := by simpa using hq0
  subst heq
  have hl2 : ∀ y ∈ l2, (y.id == qid) = false := by
    intro y hy
    rw [List.map_append, List.map_cons] at hnd
    have h2 := (List.nodup_cons.mp (List.nodup_append.mp hnd).2.1).1
    have hne : y.id ≠ qid := by
      intro hc
      apply h2
      rw [hq0id, ← hc]
      exact List.mem_map.mpr ⟨y, hy, rfl⟩
    simp [hne]
  rw [List.filter_append, List.filter_cons, hq0]
  rw [if_pos rfl]
  rw [List.filter_eq_nil_iff.mpr (by intro y hy; rw [hl1 y hy]; simp)]
  rw [List.filter_eq_nil_iff.mpr (by intro y hy; rw [hl2 y hy]; simp)]
  rfl

theorem inv_deleteQuestionsOp (st : AppState) (bs : BlobStore) (h : Inv st bs)
    (qids : List String) :
    Inv (deleteQuestionsOp st bs qids).1 (deleteQuestionsOp st bs qids).2 :=
  invQ_delete h (fun q => qids.contains q.id)

theorem inv_deleteExamOp (st : AppState) (bs : BlobStore) (h : Inv st bs)
    (examId : String) :
    Inv (deleteExamOp st bs examId).1 (deleteExamOp st bs examId).2 :=
  invQ_delete h (fun q => q.examId == examId)

theorem inv_deleteQuestionOp (st : AppState) (bs : BlobStore) (h : Inv st bs)
    (qid : String) :
    Inv (deleteQuestionOp st bs qid).1 (deleteQuestionOp st bs qid).2 := by
  unfold deleteQuestionOp
  cases hfind : st.questions.find? (fun q => q.id == qid) with
  | none => exact h
  | some q0 =>
    have hfilter := filter_of_find_unique hfind h.2.1
    have hkeys : ((st.questions.filter (fun q => q.id == qid)).flatMap questionUrls).filter isRefS
        = (questionUrls q0).filter isRefS := by
      rw [hfilter]
      simp
    have hinv := invQ_delete h (fun q => q.id == qid)
    rw [hkeys] at hinv
    exact hinv

theorem inv_addQuestionsOp (st : AppState) (bs : BlobStore) (h : Inv st bs)
    (inputs : List QuestionData) (ids : List String) (now : String)
    (hclean : ∀ q ∈ inputs, cleanQD q)
    (hids : (st.questions.map Question.id ++ ids).Nodup)
    (hlen : ids.length = inputs.length) :
    Inv (addQuestionsOp st bs inputs ids now).1.1 (addQuestionsOp st bs inputs ids now).1.2 := by
  obtain ⟨hwf, hidn, hnd, hlive⟩ := h
  obtain ⟨pext, plen, prefs, pnd, _⟩ := processQDs_spec inputs bs hwf hclean
  have hlen2 : ids.length = (processQDs bs inputs).1.length := by rw [plen]; exact hlen
  have hidsnew := zipWith_mk_ids now ids (processQDs bs inputs).1 hlen2
  have hrefsnew := zipWith_mk_refs now ids (processQDs bs inputs).1 hlen2
  unfold addQuestionsOp
  dsimp only
  by_cases hpos : (List.zipWith (fun idv q => mkQuestion idv now q) ids
      (processQDs bs inputs).1).length > 0
  · rw [if_pos hpos]
    refine ⟨pext.2.1, ?_, ?_, ?_⟩
    · show ((st.questions ++ _).map Question.id).Nodup
      rw [List.map_append, hidsnew]
      exact hids
    · show ((st.questions ++ _).flatMap questionImageKeys).Nodup
      rw [List.flatMap_append, hrefsnew]
      rw [List.nodup_append]
      refine ⟨hnd, pnd, ?_⟩
      refine @disjoint_of_indexed _ _ bs.next ?_ ?_
      · intro v hv
        obtain ⟨i, hi, hvi, _⟩ := hlive v hv
        exact ⟨i, hi, hvi⟩
      · intro v hv
        obtain ⟨i, hi1, _, hi3, _⟩ := prefs v hv
        exact ⟨i, hi1, hi3⟩
    · show ∀ v ∈ (st.questions ++ _).flatMap questionImageKeys, _
      intro v hv
      rw [List.flatMap_append, hrefsnew] at hv
      rcases List.mem_append.mp hv with h1 | h2
      · obtain ⟨i, hi, hvi, hlook⟩ := hlive v h1
        refine ⟨i, Nat.lt_of_lt_of_le hi pext.1, hvi, ?_⟩
        rw [pext.2.2 i hi]
        exact hlook
      · obtain ⟨i, _, hi2, hi3, hi4⟩ := prefs v h2
        exact ⟨i, hi2, hi3, hi4⟩
  · rw [if_neg hpos]
    refine ⟨pext.2.1, ?_, hnd, ?_⟩
    · exact (List.nodup_append.mp hids).1
    · intro v hv
      obtain ⟨i, hi, hvi, hlook⟩ := hlive v hv
      refine ⟨i, Nat.lt_of_lt_of_le hi pext.1, hvi, ?_⟩
      rw [pext.2.2 i hi]
      exact hlook

theorem inv_replaceDataOp (st : AppState) (bs : BlobStore) (h : Inv st bs)
    (data : AppState)
    (hclean : ∀ q ∈ data.questions, cleanQ q)
    (hids : (data.questions.map Question.id).Nodup) :
    Inv (replaceDataOp st bs data).1 (replaceDataOp st bs data).2 := by
  obtain ⟨hwf, _, _, _⟩ := h
  unfold replaceDataOp
  dsimp only
  by_cases hg : ((st.questions.flatMap questionUrls).filter isRefS).length > 0
  · rw [if_pos hg]
    have hwf1 : (deleteImages bs ((st.questions.flatMap questionUrls).filter isRefS)).WF :=
      deleteImages_WF hwf _
    obtain ⟨pext, prefs, pnd⟩ := processImportedQs_spec data.questions _ hwf1 hclean
    refine ⟨pext.2.1, ?_, pnd, ?_⟩
    · show ((processImportedQs _ data.questions).1.map Question.id).Nodup
      rw [processImportedQs_ids]
      exact hids
    · intro v hv
      obtain ⟨i, _, hi2, hi3, hi4⟩ := prefs v hv
      exact ⟨i, hi2, hi3, hi4⟩
  · rw [if_neg hg]
    obtain ⟨pext, prefs, pnd⟩ := processImportedQs_spec data.questions bs hwf hclean
    refine ⟨pext.2.1, ?_, pnd, ?_⟩
    · show ((processImportedQs bs data.questions).1.map Question.id).Nodup
      rw [processImportedQs_ids]
      exact hids
    · intro v hv
      obtain ⟨i, _, hi2, hi3, hi4⟩ := prefs v hv
      exact ⟨i, hi2, hi3, hi4⟩

theorem flatMap_map_sublist {α β : Type} (f : α → α) (g : α → List β) :
    ∀ qs : List α, (∀ q ∈ qs, (g (f q)).Sublist (g q)) →
    ((qs.map f).flatMap g).Sublist (qs.flatMap g) := by
  intro qs
  induction qs with
  | nil => intro _; exact List.Sublist.refl _
  | cons a as ih =>
    intro h
    rw [List.map_cons, List.flatMap_cons, List.flatMap_cons]
    exact (h a (List.mem_cons_self a as)).append
      (ih (fun q hq => h q (List.mem_cons_of_mem a hq)))

/-- A pointwise rewrite of the questions that keeps ids and only shrinks each
question's reference list preserves the invariant over an unchanged store. -/
theorem invQ_map_sublist {qs : List Question} {bs : BlobStore} (h : InvQ qs bs)
    (f : Question → Question)
    (hid : ∀ q ∈ qs, (f q).id = q.id)
    (hsub : ∀ q ∈ qs, (questionImageKeys (f q)).Sublist (questionImageKeys q)) :
    InvQ (qs.map f) bs := by
  obtain ⟨hwf, hids, hnd, hlive⟩ := h
  have hflat := flatMap_map_sublist f questionImageKeys qs hsub
  refine ⟨hwf, ?_, List.Nodup.sublist hflat hnd, ?_⟩
  · rw [List.map_map]
    have heq : qs.map (Question.id ∘ f) = qs.map Question.id :=
      List.map_congr_left (fun q hq => hid q hq)
    rw [heq]
    exact hids
  · intro v hv
    exact hlive v (hflat.mem hv)

/-- When the patch's own image url (if any) is not a blob ref, the image-url
part of the patched question's reference list only shrinks. -/
theorem patch_iu_sublist {q : Question} {data : QuestionPatch} {now : String}
    (hclean : ∀ u, data.imageUrl = some u → isRefS u = false) :
    ((iuList (applyQuestionPatch q data now)).filter isRefS).Sublist
      ((iuList q).filter isRefS) := by
  cases hdu : data.imageUrl with
  | none =>
    have heq : iuList (applyQuestionPatch q data now) = iuList q := by
      unfold iuList applyQuestionPatch
      rw [hdu, Option.none_or]
    rw [heq]
  | some u =>
    have hru := hclean u hdu
    have heq : iuList (applyQuestionPatch q data now) = [u] := by
      unfold iuList applyQuestionPatch
      rw [hdu]
      rfl
    rw [heq, List.filter_cons]
    rw [if_neg (by simp [hru])]
    exact List.nil_sublist _

/-- When a patch carries no new answer image array, applying it only shrinks
the question's reference list. -/
theorem patch_keys_sublist {q : Question} {data : QuestionPatch} {now : String}
    (hclean : cleanPatch data)
    (hans : ∀ a, data.answer = some a → a.imageUrls = none) :
    (questionImageKeys (applyQuestionPatch q data now)).Sublist (questionImageKeys q) := by
  rw [qik_eq, qik_eq]
  have hiu : ((iuList (applyQuestionPatch q data now)).filter isRefS).Sublist
      ((iuList q).filter isRefS) := patch_iu_sublist hclean.1
  have hansub : ((answerUrls (applyQuestionPatch q data now)).filter isRefS).Sublist
      ((answerUrls q).filter isRefS) := by
    cases hda : data.answer with
    | none =>
      have heq : answerUrls (applyQuestionPatch q data now) = answerUrls q := by
        unfold answerUrls applyQuestionPatch
        rw [hda, Option.none_or]
      rw [heq]
    | some a =>
      have hia := hans a hda
      have heq : answerUrls (applyQuestionPatch q data now) = [] := by
        unfold answerUrls applyQuestionPatch
        rw [hda]
        show a.imageUrls.getD [] = []
        rw [hia]
        rfl
      rw [heq]
      exact List.nil_sublist _
  exact hiu.append hansub

/-- Core of the `updateQuestion` image-rewrite case: replacing the found
question by a patched one whose answer references are fresh in `bs'`, then
deleting the old answer references, preserves the invariant. -/
theorem invQ_update_core {bs bs' : BlobStore} {l1 l2 : List Question} {q0 P : Question}
    (hinv : InvQ (l1 ++ q0 :: l2) bs)
    (hext : Extends bs bs')
    (hPid : P.id = q0.id)
    (hiu : ((iuList P).filter isRefS).Sublist ((iuList q0).filter isRefS))
    (hnewfresh : ∀ v ∈ (answerUrls P).filter isRefS, ∃ i, bs.next ≤ i ∧ i < bs'.next ∧
      v = mkRefI i ∧ (lookupE bs'.entries (mkKey i)).isSome = true)
    (hnewnd : ((answerUrls P).filter isRefS).Nodup) :
    InvQ (l1 ++ P :: l2)
      (if 0 < ((answerUrls q0).filter isRefS).length
       then deleteImages bs' ((answerUrls q0).filter isRefS)
       else bs') := by
  obtain ⟨hwf, hids, hnd, hlive⟩ := hinv
  rw [List.flatMap_append, List.flatMap_cons, qik_eq] at hnd hlive
  have hnext2 : (if 0 < ((answerUrls q0).filter isRefS).length
      then deleteImages bs' ((answerUrls q0).filter isRefS) else bs').next = bs'.next := by
    by_cases hg : 0 < ((answerUrls q0).filter isRefS).length
    · rw [if_pos hg]; rfl
    · rw [if_neg hg]
  have hwf2 : (if 0 < ((answerUrls q0).filter isRefS).length
      then deleteImages bs' ((answerUrls q0).filter isRefS) else bs').WF := by
    by_cases hg : 0 < ((answerUrls q0).filter isRefS).length
    · rw [if_pos hg]; exact deleteImages_WF hext.2.1 _
    · rw [if_neg hg]; exact hext.2.1
  have holdidx : ∀ d ∈ (answerUrls q0).filter isRefS, ∃ j, j < bs.next ∧ d = mkRefI j := by
    intro d hd
    obtain ⟨j, hj, hdj, _⟩ := hlive d (by
      rw [List.mem_append, List.mem_append, List.mem_append]
      exact Or.inr (Or.inl (Or.inr hd)))
    exact ⟨j, hj, hdj⟩
  have hsurvive : ∀ i : Nat, (i < bs.next → mkRefI i ∉ (answerUrls q0).filter isRefS) →
      lookupE (if 0 < ((answerUrls q0).filter isRefS).length
        then deleteImages bs' ((answerUrls q0).filter isRefS) else bs').entries (mkKey i)
      = lookupE bs'.entries (mkKey i) := by
    intro i hi
    by_cases hg : 0 < ((answerUrls q0).filter isRefS).length
    · rw [if_pos hg]
      apply delete_preserves_other
      intro d hd
      obtain ⟨j, hj, hdj⟩ := holdidx d hd
      refine ⟨j, hdj, ?_⟩
      intro hji
      subst hji
      exact hi hj (hdj ▸ hd)
    · rw [if_neg hg]
  have hA : l1.flatMap questionImageKeys
      = (l1.flatMap questionImageKeys) := rfl
  rw [List.nodup_append] at hnd
  obtain ⟨hAnd, hnd2, hdisjA⟩ := hnd
  rw [List.nodup_append] at hnd2
  obtain ⟨hIZ, hBnd, hdisjIOB⟩ := hnd2
  rw [List.nodup_append] at hIZ
  obtain ⟨hIU0, hOLD, hdisjIU0OLD⟩ := hIZ
  have hAidx : ∀ v ∈ l1.flatMap questionImageKeys, ∃ i, i < bs.next ∧ v = mkRefI i ∧
      (lookupE bs.entries (mkKey i)).isSome = true := by
    intro v hv
    exact hlive v (by rw [List.mem_append]; exact Or.inl hv)
  have hBidx : ∀ v ∈ l2.flatMap questionImageKeys, ∃ i, i < bs.next ∧ v = mkRefI i ∧
      (lookupE bs.entries (mkKey i)).isSome = true := by
    intro v hv
    exact hlive v (by
      rw [List.mem_append, List.mem_append]
      exact Or.inr (Or.inr hv))
  have hIU0idx : ∀ v ∈ (iuList q0).filter isRefS, ∃ i, i < bs.next ∧ v = mkRefI i ∧
      (lookupE bs.entries (mkKey i)).isSome = true := by
    intro v hv
    exact hlive v (by
      rw [List.mem_append, List.mem_append, List.mem_append]
      exact Or.inr (Or.inl (Or.inl hv)))
  have hIUPidx : ∀ v ∈ (iuList P).filter isRefS, ∃ i, i < bs.next ∧ v = mkRefI i ∧
      (lookupE bs.entries (mkKey i)).isSome = true :=
    fun v hv => hIU0idx v (hiu.subset hv)
  have hIUPnd : ((iuList P).filter isRefS).Nodup := List.Nodup.sublist hiu hIU0
  have dIUPNEW : List.Disjoint ((iuList P).filter isRefS) ((answerUrls P).filter isRefS) :=
    @disjoint_of_indexed _ _ bs.next
      (fun v hv => (hIUPidx v hv).elim (fun i hi => ⟨i, hi.1, hi.2.1⟩))
      (fun v hv => (hnewfresh v hv).elim (fun i hi => ⟨i, hi.1, hi.2.2.1⟩))
  have dANEW : List.Disjoint (l1.flatMap questionImageKeys) ((answerUrls P).filter isRefS) :=
    @disjoint_of_indexed _ _ bs.next
      (fun v hv => (hAidx v hv).elim (fun i hi => ⟨i, hi.1, hi.2.1⟩))
      (fun v hv => (hnewfresh v hv).elim (fun i hi => ⟨i, hi.1, hi.2.2.1⟩))
  have dBNEW : List.Disjoint (l2.flatMap questionImageKeys) ((answerUrls P).filter isRefS) :=
    @disjoint_of_indexed _ _ bs.next
      (fun v hv => (hBidx v hv).elim (fun i hi => ⟨i, hi.1, hi.2.1⟩))
      (fun v hv => (hnewfresh v hv).elim (fun i hi => ⟨i, hi.1, hi.2.2.1⟩))
  have dAIUP : List.Disjoint (l1.flatMap questionImageKeys) ((iuList P).filter isRefS) := by
    rw [List.disjoint_left]
    intro a ha hb
    exact hdisjA ha (by
      rw [List.mem_append, List.mem_append]
      exact Or.inl (Or.inl (hiu.subset hb)))
  have dAB : List.Disjoint (l1.flatMap questionImageKeys) (l2.flatMap questionImageKeys) := by
    rw [List.disjoint_left]
    intro a ha hb
    exact hdisjA ha (by rw [List.mem_append]; exact Or.inr hb)
  have dIUPB : List.Disjoint ((iuList P).filter isRefS) (l2.flatMap questionImageKeys) := by
    rw [List.disjoint_left]
    intro a ha hb
    exact hdisjIOB (by rw [List.mem_append]; exact Or.inl (hiu.subset ha)) hb
  refine ⟨hwf2, ?_, ?_, ?_⟩
  · rw [List.map_append, List.map_cons] at hids ⊢
    rw [hPid]
    exact hids
  · rw [List.flatMap_append, List.flatMap_cons, qik_eq]
    rw [List.nodup_append]
    refine ⟨hAnd, ?_, ?_⟩
    · rw [List.nodup_append]
      refine ⟨?_, hBnd, ?_⟩
      · rw [List.nodup_append]
        exact ⟨hIUPnd, hnewnd, dIUPNEW⟩
      · rw [List.disjoint_append_left]
        exact ⟨dIUPB, dBNEW.symm⟩
    · rw [List.disjoint_append_right, List.disjoint_append_right]
      exact ⟨⟨dAIUP, dANEW⟩, dAB⟩
  · rw [List.flatMap_append, List.flatMap_cons, qik_eq]
    intro v hv
    rw [List.mem_append, List.mem_append, List.mem_append] at hv
    rw [hnext2]
    rcases hv with hvA | (hvIUP | hvNEW) | hvB
    · obtain ⟨i, hi, hvi, hsome⟩ := hAidx v hvA
      refine ⟨i, Nat.lt_of_lt_of_le hi hext.1, hvi, ?_⟩
      have hnot : mkRefI i ∉ (answerUrls q0).filter isRefS := by
        intro hc
        exact hdisjA hvA (by
          rw [List.mem_append, List.mem_append]
          exact Or.inl (Or.inr (hvi ▸ hc)))
      rw [hsurvive i (fun _ => hnot), hext.2.2 i hi]
      exact hsome
    · obtain ⟨i, hi, hvi, hsome⟩ := hIUPidx v hvIUP
      refine ⟨i, Nat.lt_of_lt_of_le hi hext.1, hvi, ?_⟩
      have hnot : mkRefI i ∉ (answerUrls q0).filter isRefS := by
        intro hc
        exact hdisjIU0OLD (hiu.subset hvIUP) (hvi ▸ hc)
      rw [hsurvive i (fun _ => hnot), hext.2.2 i hi]
      exact hsome
    · obtain ⟨i, hge, hlt, hvi, hsome⟩ := hnewfresh v hvNEW
      refine ⟨i, hlt, hvi, ?_⟩
      rw [hsurvive i (fun hi => absurd hi (Nat.not_lt.mpr hge))]
      exact hsome
    · obtain ⟨i, hi, hvi, hsome⟩ := hBidx v hvB
      refine ⟨i, Nat.lt_of_lt_of_le hi hext.1, hvi, ?_⟩
      have hnot : mkRefI i ∉ (answerUrls q0).filter isRefS := by
        intro hc
        exact hdisjIOB (by rw [List.mem_append]; exact Or.inr (hvi ▸ hc)) hvB
      rw [hsurvive i (fun _ => hnot), hext.2.2 i hi]
      exact hsome

/-- With duplicate-free ids, a successful `find?` splits the list with the
match predicate false on both sides. -/
theorem find_split_nodup {qs : List Question} {qid : String} {q0 : Question}
    (hfind : qs.find? (fun q => q.id == qid) = some q0)
    (hnd : (qs.map Question.id).Nodup) :
    ∃ l1 l2, qs = l1 ++ q0 :: l2 ∧ (∀ y ∈ l1, (y.id == qid) = false) ∧
      (∀ y ∈ l2, (y.id == qid) = false) ∧ q0.id = qid := by
  obtain ⟨l1, l2, heq, hl1⟩ := find?_split hfind
  have hq0 : (q0.id == qid) = true := by
    simpa using @List.find?_some _ (fun q => q.id == qid) q0 qs hfind
  have hq0id : q0.id = qid := by simpa using hq0
  subst heq
  refine ⟨l1, l2, rfl, hl1, ?_, hq0id⟩
  intro y hy
  rw [List.map_append, List.map_cons] at hnd
  have h2 := (List.nodup_cons.mp (List.nodup_append.mp hnd).2.1).1
  have hne : y.id ≠ qid := by
    intro hc
    apply h2
    rw [hq0id, ← hc]
    exact List.mem_map.mpr ⟨y, hy, rfl⟩
  simp [hne]

/-- `updateQuestion` preserves the invariant for a clean patch. -/
theorem inv_updateQuestionOp (st : AppState) (bs : BlobStore) (h : Inv st bs)
    (qid : String) (data : QuestionPatch) (now : String)
    (hclean : cleanPatch data) :
    Inv (updateQuestionOp st bs qid data now).1 (updateQuestionOp st bs qid data now).2 := by
  unfold updateQuestionOp
  cases hfind : st.questions.find? (fun q => q.id == qid) with
  | none => exact h
  | some q0 =>
    cases hda : data.answer with
    | none =>
      show Inv (appReducer st (.updateQuestion qid data now)) bs
      refine invQ_map_sublist h
        (fun q => if q.id == qid then applyQuestionPatch q data now else q) ?_ ?_
      · intro q _
        dsimp only
        by_cases hq : (q.id == qid) = true
        · rw [if_pos hq]
          rfl
        · rw [if_neg hq]
      · intro q _
        dsimp only
        by_cases hq : (q.id == qid) = true
        · rw [if_pos hq]
          exact patch_keys_sublist hclean (fun a ha => by rw [hda] at ha; cases ha)
        · rw [if_neg hq]
    | some ans =>
      dsimp only
      cases hai : ans.imageUrls with
      | none =>
        show Inv (appReducer st (.updateQuestion qid data now)) bs
        refine invQ_map_sublist h
          (fun q => if q.id == qid then applyQuestionPatch q data now else q) ?_ ?_
        · intro q _
          dsimp only
          by_cases hq : (q.id == qid) = true
          · rw [if_pos hq]
            rfl
          · rw [if_neg hq]
        · intro q _
          dsimp only
          by_cases hq : (q.id == qid) = true
          · rw [if_pos hq]
            exact patch_keys_sublist hclean
              (fun a ha => by rw [hda] at ha; cases ha; exact hai)
          · rw [if_neg hq]
      | some newImageUrls =>
        dsimp only
        obtain ⟨hwf, hids, hnd, hlive⟩ := h
        have hcleanNew : ∀ u ∈ newImageUrls, isRefS u = false :=
          hclean.2 ans hda newImageUrls hai
        obtain ⟨sext, slen, spos, smem, snd⟩ := storeList_spec newImageUrls bs hwf
        have hfreshNEW : ∀ v ∈ (storeList bs newImageUrls).1.filter isRefS,
            ∃ i, bs.next ≤ i ∧ i < (storeList bs newImageUrls).2.next ∧ v = mkRefI i ∧
              (lookupE (storeList bs newImageUrls).2.entries (mkKey i)).isSome = true := by
          intro v hv
          have hvm := List.mem_filter.mp hv
          obtain ⟨j, hj⟩ := List.mem_iff_getElem?.mp hvm.1
          obtain ⟨hjlt, _⟩ := List.getElem?_eq_some.mp hj
          have hjlt2 : j < newImageUrls.length := by rw [← slen]; exact hjlt
          have hus : newImageUrls[j]? = some (newImageUrls[j]) :=
            List.getElem?_eq_getElem hjlt2
          cases hb : isBase64S (newImageUrls[j]) with
          | true =>
            obtain ⟨i, h1, h2, h3, h4⟩ := (spos j (newImageUrls[j]) hus).1 hb
            rw [hj] at h3
            cases h3
            refine ⟨i, h1, h2, rfl, ?_⟩
            rw [h4]
            rfl
          | false =>
            exfalso
            have hveq := (spos j (newImageUrls[j]) hus).2 hb
            rw [hj] at hveq
            cases hveq
            have := hcleanNew _ (List.getElem_mem hjlt2)
            rw [this] at hvm
            cases hvm.2
        have hndNEW : ((storeList bs newImageUrls).1.filter isRefS).Nodup :=
          snd hcleanNew
        have hq0mem : q0 ∈ st.questions := List.mem_of_find?_eq_some hfind
        have holdflat : ∀ k ∈ (answerUrls q0).filter isRefS,
            k ∈ st.questions.flatMap questionImageKeys := by
          intro k hk
          refine List.mem_flatMap.mpr ⟨q0, hq0mem, ?_⟩
          rw [qik_eq, List.mem_append]
          exact Or.inr hk
        have hcontains : ∀ k ∈ (answerUrls q0).filter isRefS,
            (storeList bs newImageUrls).1.contains k = false := by
          intro k hk
          cases hc : (storeList bs newImageUrls).1.contains k with
          | false => rfl
          | true =>
            exfalso
            have hmem : k ∈ (storeList bs newImageUrls).1 := by simpa using hc
            have hkref := (List.mem_filter.mp hk).2
            rcases smem k hmem hkref with ⟨i, hge, _, hkeq⟩ | hmemus
            · obtain ⟨i', hi', hkeq', _⟩ := hlive k (holdflat k hk)
              rw [hkeq] at hkeq'
              have := mkRefI_inj hkeq'
              omega
            · rw [hcleanNew k hmemus] at hkref
              cases hkref
        have htd : ((answerUrls q0).filter isRefS).filter
            (fun k => !((storeList bs newImageUrls).1.contains k))
            = (answerUrls q0).filter isRefS := by
          apply List.filter_eq_self.mpr
          intro k hk
          rw [hcontains k hk]
          rfl
        obtain ⟨l1, l2, heqs, hl1, hl2, hq0id⟩ := find_split_nodup hfind hids
        have hinv0 : InvQ st.questions bs := ⟨hwf, hids, hnd, hlive⟩
        rw [heqs] at hinv0
        have hanspP : answerUrls (applyQuestionPatch q0
            { data with answer := some { ans with imageUrls := some (storeList bs newImageUrls).1 } } now)
            = (storeList bs newImageUrls).1 := rfl
        have hiuP : ((iuList (applyQuestionPatch q0
            { data with answer := some { ans with imageUrls := some (storeList bs newImageUrls).1 } } now)).filter isRefS).Sublist
            ((iuList q0).filter isRefS) :=
          patch_iu_sublist (fun u hu => hclean.1 u hu)
        have hfresh' : ∀ v ∈ (answerUrls (applyQuestionPatch q0
            { data with answer := some { ans with imageUrls := some (storeList bs newImageUrls).1 } } now)).filter isRefS,
            ∃ i, bs.next ≤ i ∧ i < (storeList bs newImageUrls).2.next ∧ v = mkRefI i ∧
              (lookupE (storeList bs newImageUrls).2.entries (mkKey i)).isSome = true := by
          rw [hanspP]
          exact hfreshNEW
        have hnd' : ((answerUrls (applyQuestionPatch q0
            { data with answer := some { ans with imageUrls := some (storeList bs newImageUrls).1 } } now)).filter isRefS).Nodup := by
          rw [hanspP]
          exact hndNEW
        have hPid : (applyQuestionPatch q0
            { data with answer := some { ans with imageUrls := some (storeList bs newImageUrls).1 } } now).id
            = q0.id := rfl
        have hcore := invQ_update_core hinv0 sext hPid hiuP hfresh' hnd'
        have hmapl1 : l1.map (fun q => if q.id == qid then applyQuestionPatch q
            { data with answer := some { ans with imageUrls := some (storeList bs newImageUrls).1 } } now else q)
            = l1 :=
          map_self_of_forall (fun y hy => by rw [if_neg (by simp [hl1 y hy])])
        have hmapl2 : l2.map (fun q => if q.id == qid then applyQuestionPatch q
            { data with answer := some { ans with imageUrls := some (storeList bs newImageUrls).1 } } now else q)
            = l2 :=
          map_self_of_forall (fun y hy => by rw [if_neg (by simp [hl2 y hy])])
        have hmap : st.questions.map (fun q => if q.id == qid then applyQuestionPatch q
            { data with answer := some { ans with imageUrls := some (storeList bs newImageUrls).1 } } now else q)
            = l1 ++ applyQuestionPatch q0
            { data with answer := some { ans with imageUrls := some (storeList bs newImageUrls).1 } } now :: l2 := by
          rw [heqs, List.map_append, List.map_cons, hmapl1, hmapl2]
          rw [if_pos (show (q0.id == qid) = true by simp [hq0id])]
        show Inv (appReducer st (.updateQuestion qid
          { data with answer := some { ans with imageUrls := some (storeList bs newImageUrls).1 } } now)) _
        show InvQ (st.questions.map _) _
        rw [hmap]
        rw [← htd] at hcore
        exact hcore

/-- With duplicate-free keys, overwriting a present key replaces exactly the
entry that holds it. -/
theorem mapSet_split {α : Type} {m : List (String × α)} {k : String}
    (hnd : (m.map Prod.fst).Nodup) (hany : m.any (fun p => p.1 == k) = true) (v : α) :
    ∃ A v0 B, m = A ++ (k, v0) :: B ∧ mapGet m k = some v0 ∧
      mapSet m k v = A ++ (k, v) :: B := by
  have hfs : (m.find? (fun p => p.1 == k)).isSome = true := by
    rw [List.find?_isSome]
    obtain ⟨p, hp, hpk⟩ := List.any_eq_true.mp hany
    exact ⟨p, hp, hpk⟩
  obtain ⟨p0, hfind⟩ := Option.isSome_iff_exists.mp hfs
  obtain ⟨pf, ps⟩ := p0
  have hp0k : pf = k := by
    simpa using @List.find?_some _ (fun p => p.1 == k) (pf, ps) m hfind
  subst pf
  obtain ⟨A, B, heq, hA⟩ := find?_split hfind
  subst heq
  have hB : ∀ p ∈ B, (p.1 == k) = false := by
    intro p hp
    rw [List.map_append, List.map_cons] at hnd
    have h2 := (List.nodup_cons.mp (List.nodup_append.mp hnd).2.1).1
    have hne : p.1 ≠ k := by
      intro hc
      apply h2
      show (k, ps).1 ∈ B.map Prod.fst
      show k ∈ B.map Prod.fst
      rw [← hc]
      exact List.mem_map.mpr ⟨p, hp, rfl⟩
    simp [hne]
  refine ⟨A, ps, B, rfl, ?_, ?_⟩
  · unfold mapGet
    rw [hfind]
    rfl
  · unfold mapSet
    rw [hany]
    rw [if_pos rfl]
    rw [List.map_append, List.map_cons]
    rw [map_self_of_forall (fun p hp => by rw [if_neg (by simp [hA p hp])])]
    rw [map_self_of_forall (fun p hp => by rw [if_neg (by simp [hB p hp])])]
    rw [if_pos (by simp)]

/-- The image-url slot of a spread comes from one of the two operands. -/
theorem iuList_spread (a b : Question) :
    iuList (spreadQuestion a b) = iuList b ∨ iuList (spreadQuestion a b) = iuList a := by
  cases hb : b.imageUrl with
  | some u =>
    left
    unfold iuList spreadQuestion
    rw [hb]
    rfl
  | none =>
    right
    unfold iuList spreadQuestion
    rw [hb, Option.none_or]

/-- The answer-url array of a spread comes from one of the two operands. -/
theorem answerUrls_spread (a b : Question) :
    answerUrls (spreadQuestion a b) = answerUrls b ∨
    answerUrls (spreadQuestion a b) = answerUrls a := by
  cases hb : b.answer with
  | some w =>
    left
    unfold answerUrls spreadQuestion
    rw [hb]
    rfl
  | none =>
    right
    unfold answerUrls spreadQuestion
    rw [hb, Option.none_or]

/-- The reference list of a spread of two questions with disjoint
duplicate-free reference lists is itself duplicate-free, and every entry comes
from one of the operands. -/
theorem qik_spread {a b : Question} (ha : (questionImageKeys a).Nodup)
    (hb : (questionImageKeys b).Nodup)
    (hdisj : List.Disjoint (questionImageKeys a) (questionImageKeys b)) :
    (questionImageKeys (spreadQuestion a b)).Nodup ∧
    (∀ v ∈ questionImageKeys (spreadQuestion a b),
      v ∈ questionImageKeys a ∨ v ∈ questionImageKeys b) := by
  rw [qik_eq] at ha
  rw [qik_eq] at hb
  rw [qik_eq a, qik_eq b] at hdisj
  rw [List.nodup_append] at ha hb
  have hanb : ∀ u, u ∈ (answerUrls a).filter isRefS →
      u ∈ (iuList b).filter isRefS → False := by
    intro u h1 h2
    exact hdisj (List.mem_append_right _ h1) (List.mem_append_left _ h2)
  have hian : ∀ u, u ∈ (iuList a).filter isRefS →
      u ∈ (answerUrls b).filter isRefS → False := by
    intro u h1 h2
    exact hdisj (List.mem_append_left _ h1) (List.mem_append_right _ h2)
  rcases iuList_spread a b with h1 | h1 <;> rcases answerUrls_spread a b with h2 | h2 <;>
    rw [qik_eq, h1, h2] <;> constructor
  · exact List.nodup_append.mpr ⟨hb.1, hb.2.1, hb.2.2⟩
  · intro v hv
    right
    rw [qik_eq]
    exact hv
  · refine List.nodup_append.mpr ⟨hb.1, ha.2.1, ?_⟩
    intro u h1 h2
    exact hanb u h2 h1
  · intro v hv
    rw [List.mem_append] at hv
    rcases hv with hv | hv
    · right
      rw [qik_eq, List.mem_append]
      exact Or.inl hv
    · left
      rw [qik_eq, List.mem_append]
      exact Or.inr hv
  · refine List.nodup_append.mpr ⟨ha.1, hb.2.1, ?_⟩
    intro u h1 h2
    exact hian u h1 h2
  · intro v hv
    rw [List.mem_append] at hv
    rcases hv with hv | hv
    · left
      rw [qik_eq, List.mem_append]
      exact Or.inl hv
    · right
      rw [qik_eq, List.mem_append]
      exact Or.inr hv
  · exact List.nodup_append.mpr ⟨ha.1, ha.2.1, ha.2.2⟩
  · intro v hv
    left
    rw [qik_eq]
    exact hv

/-- Invariant carried through the MERGE_DATA fold over one incoming question
collection: duplicate-free keys, each value's id matching its key, and a
duplicate-free, live reference list over the map's values — given that the
incoming records' references are duplicate-free, live, and disjoint from the
map's. -/
theorem mergeFold_inv (S : BlobStore) :
    ∀ (inc : List Question) (m : List (String × Question)),
    (m.map Prod.fst).Nodup →
    (∀ p ∈ m, p.2.id = p.1) →
    ((mapValues m).flatMap questionImageKeys).Nodup →
    (∀ v ∈ (mapValues m).flatMap questionImageKeys, ∃ i, i < S.next ∧ v = mkRefI i ∧
      (lookupE S.entries (mkKey i)).isSome = true) →
    (inc.flatMap questionImageKeys).Nodup →
    (∀ v ∈ inc.flatMap questionImageKeys, ∃ i, i < S.next ∧ v = mkRefI i ∧
      (lookupE S.entries (mkKey i)).isSome = true) →
    List.Disjoint ((mapValues m).flatMap questionImageKeys) (inc.flatMap questionImageKeys) →
    ((mergeFold Question.id (combOf spreadQuestion) m inc).map Prod.fst).Nodup ∧
    (∀ p ∈ mergeFold Question.id (combOf spreadQuestion) m inc, p.2.id = p.1) ∧
    ((mapValues (mergeFold Question.id (combOf spreadQuestion) m inc)).flatMap
      questionImageKeys).Nodup ∧
    (∀ v ∈ (mapValues (mergeFold Question.id (combOf spreadQuestion) m inc)).flatMap
      questionImageKeys, ∃ i, i < S.next ∧ v = mkRefI i ∧
      (lookupE S.entries (mkKey i)).isSome = true) := by
  intro inc
  induction inc with
  | nil => intro m h1 h2 h3 h4 _ _ _; exact ⟨h1, h2, h3, h4⟩
  | cons x xs ih =>
    intro m h1 h2 h3 h4 hincnd hinclive hdisj
    rw [List.flatMap_cons] at hincnd hinclive hdisj
    rw [List.nodup_append] at hincnd
    have hstep : mergeFold Question.id (combOf spreadQuestion) m (x :: xs)
        = mergeFold Question.id (combOf spreadQuestion)
            (mapSet m x.id (combOf spreadQuestion (mapGet m x.id) x)) xs := rfl
    rw [hstep]
    by_cases hany : m.any (fun p => p.1 == x.id) = true
    · obtain ⟨A, v0, B, hmeq, hget, hset⟩ :=
        mapSet_split h1 hany (combOf spreadQuestion (mapGet m x.id) x)
      have hcomb : combOf spreadQuestion (mapGet m x.id) x = spreadQuestion v0 x := by
        rw [hget]
        rfl
      rw [hcomb] at hset ⊢
      have hVm : (mapValues m).flatMap questionImageKeys
          = (mapValues A).flatMap questionImageKeys ++
            (questionImageKeys v0 ++ (mapValues B).flatMap questionImageKeys) := by
        rw [hmeq]
        unfold mapValues
        rw [List.map_append, List.map_cons, List.flatMap_append, List.flatMap_cons]
      rw [hVm] at h3 h4 hdisj
      rw [List.nodup_append] at h3
      obtain ⟨hFA, h3r, hdisjFA⟩ := h3
      rw [List.nodup_append] at h3r
      obtain ⟨hv0nd, hFB, hdisjv0B⟩ := h3r
      have hdv0x : List.Disjoint (questionImageKeys v0) (questionImageKeys x) := by
        intro a ha hb
        exact hdisj (by rw [List.mem_append, List.mem_append]; exact Or.inr (Or.inl ha))
          (List.mem_append_left _ hb)
      obtain ⟨hsnd, hsmem⟩ := qik_spread hv0nd hincnd.1 hdv0x
      have hv1 : (mapValues (A ++ (x.id, spreadQuestion v0 x) :: B)).flatMap questionImageKeys
          = (mapValues A).flatMap questionImageKeys ++
            (questionImageKeys (spreadQuestion v0 x) ++
              (mapValues B).flatMap questionImageKeys) := by
        unfold mapValues
        rw [List.map_append, List.map_cons, List.flatMap_append, List.flatMap_cons]
      rw [hset]
      apply ih
      · have hkeys : ((A ++ (x.id, spreadQuestion v0 x) :: B).map Prod.fst)
            = m.map Prod.fst := by
          rw [hmeq]
          simp
        rw [hkeys]
        exact h1
      · intro p hp
        rw [List.mem_append, List.mem_cons] at hp
        rcases hp with hpA | hpe | hpB
        · exact h2 p (by rw [hmeq, List.mem_append]; exact Or.inl hpA)
        · subst hpe
          rfl
        · exact h2 p (by
            rw [hmeq, List.mem_append, List.mem_cons]
            exact Or.inr (Or.inr hpB))
      · rw [hv1]
        rw [List.nodup_append]
        refine ⟨hFA, ?_, ?_⟩
        · rw [List.nodup_append]
          refine ⟨hsnd, hFB, ?_⟩
          intro a ha hb
          rcases hsmem a ha with h | h
          · exact hdisjv0B h hb
          · exact hdisj
              (by rw [List.mem_append, List.mem_append]; exact Or.inr (Or.inr hb))
              (List.mem_append_left _ h)
        · intro a ha hb
          rw [List.mem_append] at hb
          rcases hb with hb | hb
          · rcases hsmem a hb with h | h
            · exact hdisjFA ha (List.mem_append_left _ h)
            · exact hdisj (by rw [List.mem_append]; exact Or.inl ha)
                (List.mem_append_left _ h)
          · exact hdisjFA ha (List.mem_append_right _ hb)
      · rw [hv1]
        intro v hv
        rw [List.mem_append, List.mem_append] at hv
        rcases hv with hvA | hvs | hvB
        · exact h4 v (by rw [List.mem_append]; exact Or.inl hvA)
        · rcases hsmem v hvs with h | h
          · exact h4 v (by
              rw [List.mem_append, List.mem_append]
              exact Or.inr (Or.inl h))
          · exact hinclive v (List.mem_append_left _ h)
        · exact h4 v (by
            rw [List.mem_append, List.mem_append]
            exact Or.inr (Or.inr hvB))
      · exact hincnd.2.1
      · exact fun v hv => hinclive v (List.mem_append_right _ hv)
      · rw [hv1]
        intro a ha hb
        rw [List.mem_append, List.mem_append] at ha
        rcases ha with hvA | hvs | hvB
        · exact hdisj (by rw [List.mem_append]; exact Or.inl hvA)
            (List.mem_append_right _ hb)
        · rcases hsmem a hvs with h | h
          · exact hdisj (by
              rw [List.mem_append, List.mem_append]
              exact Or.inr (Or.inl h)) (List.mem_append_right _ hb)
          · exact hincnd.2.2 h hb
        · exact hdisj (by
            rw [List.mem_append, List.mem_append]
            exact Or.inr (Or.inr hvB)) (List.mem_append_right _ hb)
    · have hany' : m.any (fun p => p.1 == x.id) = false := by
        cases hc : m.any (fun p => p.1 == x.id)
        · rfl
        · exact absurd hc hany
      have hget : mapGet m x.id = none := by
        unfold mapGet
        rw [List.find?_eq_none.mpr (fun p hp => by simp [fresh_of_any_false hany' p hp])]
        rfl
      have hm1 : mapSet m x.id (combOf spreadQuestion (mapGet m x.id) x)
          = m ++ [(x.id, x)] := by
        rw [hget]
        exact mapSet_fresh x (fresh_of_any_false hany')
      have hv1 : (mapValues (m ++ [(x.id, x)])).flatMap questionImageKeys
          = (mapValues m).flatMap questionImageKeys ++ questionImageKeys x := by
        unfold mapValues
        rw [List.map_append, List.flatMap_append]
        simp
      rw [hm1]
      apply ih
      · rw [List.map_append]
        rw [List.nodup_append]
        refine ⟨h1, by simp, ?_⟩
        intro a haA hbB
        simp at hbB
        subst hbB
        obtain ⟨p, hp, hpa⟩ := List.mem_map.mp haA
        exact fresh_of_any_false hany' p hp hpa
      · intro p hp
        rw [List.mem_append] at hp
        rcases hp with hp | hp
        · exact h2 p hp
        · simp at hp
          subst hp
          rfl
      · rw [hv1]
        rw [List.nodup_append]
        refine ⟨h3, hincnd.1, ?_⟩
        intro a ha hb
        exact hdisj ha (List.mem_append_left _ hb)
      · rw [hv1]
        intro v hv
        rw [List.mem_append] at hv
        rcases hv with hv | hv
        · exact h4 v hv
        · exact hinclive v (List.mem_append_left _ hv)
      · exact hincnd.2.1
      · exact fun v hv => hinclive v (List.mem_append_right _ hv)
      · rw [hv1]
        intro a ha hb
        rw [List.mem_append] at ha
        rcases ha with ha | ha
        · exact hdisj ha (List.mem_append_right _ hb)
        · exact hincnd.2.2 ha hb

/-- `mergeData` preserves the invariant for a clean imported snapshot with
duplicate-free question ids. -/
theorem inv_mergeDataOp (st : AppState) (bs : BlobStore) (h : Inv st bs)
    (data : AppState)
    (hclean : ∀ q ∈ data.questions, cleanQ q) :
    Inv (mergeDataOp st bs data).1 (mergeDataOp st bs data).2 := by
  obtain ⟨hwf, hids, hnd, hlive⟩ := h
  obtain ⟨pext, prefs, pnd⟩ := processImportedQs_spec data.questions bs hwf hclean
  unfold mergeDataOp
  dsimp only
  show InvQ (mergeColl Question.id (combOf spreadQuestion) st.questions
    (processImportedQs bs data.questions).1) (processImportedQs bs data.questions).2
  have hkeys0 : ((st.questions.map (fun x => (x.id, x))).map Prod.fst)
      = st.questions.map Question.id := by
    rw [List.map_map]
    rfl
  have hm0 : mapFromList (st.questions.map (fun x => (x.id, x)))
      = st.questions.map (fun x => (x.id, x)) :=
    mapFromList_of_nodup _ (by rw [show ((st.questions.map (fun x => (x.id, x))).map
      (fun p => p.1)) = st.questions.map Question.id from by rw [List.map_map]; rfl]; exact hids)
  have hvals0 : mapValues (st.questions.map (fun x => (x.id, x))) = st.questions := by
    unfold mapValues
    rw [List.map_map]
    exact List.map_id st.questions
  have hmain := mergeFold_inv (processImportedQs bs data.questions).2
    (processImportedQs bs data.questions).1
    (st.questions.map (fun x => (x.id, x)))
    (by rw [hkeys0]; exact hids)
    (by
      intro p hp
      obtain ⟨x, hx, hpx⟩ := List.mem_map.mp hp
      rw [← hpx])
    (by rw [hvals0]; exact hnd)
    (by
      rw [hvals0]
      intro v hv
      obtain ⟨i, hi, hvi, hsome⟩ := hlive v hv
      refine ⟨i, Nat.lt_of_lt_of_le hi pext.1, hvi, ?_⟩
      rw [pext.2.2 i hi]
      exact hsome)
    pnd
    (by
      intro v hv
      obtain ⟨i, _, hi2, hi3, hi4⟩ := prefs v hv
      exact ⟨i, hi2, hi3, hi4⟩)
    (by
      rw [hvals0]
      refine @disjoint_of_indexed _ _ bs.next ?_ ?_
      · intro v hv
        obtain ⟨i, hi, hvi, _⟩ := hlive v hv
        exact ⟨i, hi, hvi⟩
      · intro v hv
        obtain ⟨i, hi1, _, hi3, _⟩ := prefs v hv
        exact ⟨i, hi1, hi3⟩)
  obtain ⟨hknd, hkm, hvnd, hvlive⟩ := hmain
  unfold mergeColl
  rw [hm0]
  refine ⟨pext.2.1, ?_, hvnd, hvlive⟩
  have hidkeys : (mapValues (mergeFold Question.id (combOf spreadQuestion)
      (st.questions.map (fun x => (x.id, x)))
      (processImportedQs bs data.questions).1)).map Question.id
      = (mergeFold Question.id (combOf spreadQuestion)
      (st.questions.map (fun x => (x.id, x)))
      (processImportedQs bs data.questions).1).map Prod.fst := by
    unfold mapValues
    rw [List.map_map]
    exact List.map_congr_left (fun p hp => hkm p hp)
  rw [hidkeys]
  exact hknd

/-- States reachable from the empty app through the provider's image-managing
operations.  Creation payloads, update patches and imported snapshots carry
images only inline (as the backup format produces), ids handed to new records
are fresh, and imported snapshots have duplicate-free question ids. -/
inductive Reachable : AppState → BlobStore → Prop where
  | empty : Reachable { exams := [], questions := [], tags := [] } emptyBS
  | addQuestions {st : AppState} {bs : BlobStore}
      (inputs : List QuestionData) (ids : List String) (now : String) :
      Reachable st bs →
      (∀ q ∈ inputs, cleanQD q) →
      (st.questions.map Question.id ++ ids).Nodup →
      ids.length = inputs.length →
      Reachable (addQuestionsOp st bs inputs ids now).1.1
        (addQuestionsOp st bs inputs ids now).1.2
  | updateQuestion {st : AppState} {bs : BlobStore}
      (qid : String) (data : QuestionPatch) (now : String) :
      Reachable st bs →
      cleanPatch data →
      Reachable (updateQuestionOp st bs qid data now).1
        (updateQuestionOp st bs qid data now).2
  | deleteQuestion {st : AppState} {bs : BlobStore} (qid : String) :
      Reachable st bs →
      Reachable (deleteQuestionOp st bs qid).1 (deleteQuestionOp st bs qid).2
  | deleteQuestions {st : AppState} {bs : BlobStore} (qids : List String) :
      Reachable st bs →
      Reachable (deleteQuestionsOp st bs qids).1 (deleteQuestionsOp st bs qids).2
  | deleteExam {st : AppState} {bs : BlobStore} (examId : String) :
      Reachable st bs →
      Reachable (deleteExamOp st bs examId).1 (deleteExamOp st bs examId).2
  | replaceData {st : AppState} {bs : BlobStore} (data : AppState) :
      Reachable st bs →
      (∀ q ∈ data.questions, cleanQ q) →
      (data.questions.map Question.id).Nodup →
      Reachable (replaceDataOp st bs data).1 (replaceDataOp st bs data).2
  | mergeData {st : AppState} {bs : BlobStore} (data : AppState) :
      Reachable st bs →
      (∀ q ∈ data.questions, cleanQ q) →
      Reachable (mergeDataOp st bs data).1 (mergeDataOp st bs data).2

/-- Every reachable state satisfies the blob-reference invariant. -/
theorem reachable_inv {st : AppState} {bs : BlobStore} (h : Reachable st bs) :
    Inv st bs := by
  induction h with
  | empty =>
    refine ⟨emptyBS_WF, List.nodup_nil, List.nodup_nil, ?_⟩
    intro v hv
    cases hv
  | addQuestions inputs ids now _ hclean hids hlen ih =>
    exact inv_addQuestionsOp _ _ ih inputs ids now hclean hids hlen
  | updateQuestion qid data now _ hclean ih =>
    exact inv_updateQuestionOp _ _ ih qid data now hclean
  | deleteQuestion qid _ ih => exact inv_deleteQuestionOp _ _ ih qid
  | deleteQuestions qids _ ih => exact inv_deleteQuestionsOp _ _ ih qids
  | deleteExam examId _ ih => exact inv_deleteExamOp _ _ ih examId
  | replaceData data _ hclean hids ih =>
    exact inv_replaceDataOp _ _ ih data hclean hids
  | mergeData data _ hclean ih => exact inv_mergeDataOp _ _ ih data hclean

/-- C1.  Blob-reference liveness invariant: in every state reachable from the
empty state via the collaborator-facing operations (`addQuestions`,
`updateQuestion`, `deleteQuestion`, `deleteQuestions`, `deleteExam`,
`replaceData`, `mergeData`, where imported snapshots carry images only as
inline data URIs), every `Question.imageUrl` and every `Answer.imageUrls`
entry that is a blob-store reference (`idb://` prefix) corresponds to a live
entry in the blob store; in particular, after `addQuestions` on a question
whose `imageUrl` is a data URI, the stored question's `imageUrl` is a
blob-store reference and getting that reference from the blob store returns
the original data URI. -/
theorem c1_blob_liveness :
    (∀ (st : AppState) (bs : BlobStore), Reachable st bs →
      ∀ q ∈ st.questions, ∀ u ∈ questionUrls q, isRefS u = true →
        (getImage bs u).isSome = true) ∧
    (∀ (st : AppState) (bs : BlobStore), Reachable st bs →
      ∀ (inputs : List QuestionData) (ids : List String) (now : String),
      (∀ q ∈ inputs, cleanQD q) →
      (st.questions.map Question.id ++ ids).Nodup →
      ids.length = inputs.length →
      ∀ (k : Nat) (p : QuestionData) (d : String),
        inputs[k]? = some p → p.imageUrl = some d → isBase64S d = true →
        ∃ q', (addQuestionsOp st bs inputs ids now).2[k]? = some q' ∧
          ∃ i, q'.imageUrl = some (mkRefI i) ∧ isRefS (mkRefI i) = true ∧
            getImage (addQuestionsOp st bs inputs ids now).1.2 (mkRefI i) = some d ∧
            q' ∈ (addQuestionsOp st bs inputs ids now).1.1.questions) := by
  constructor
  · intro st bs hr q hq u hu href
    obtain ⟨hwf, hids, hnd, hlive⟩ := reachable_inv hr
    have hmem : u ∈ st.questions.flatMap questionImageKeys :=
      List.mem_flatMap.mpr ⟨q, hq, List.mem_filter.mpr ⟨hu, href⟩⟩
    obtain ⟨i, hi, hui, hsome⟩ := hlive u hmem
    subst hui
    rw [getImage_mkRefI]
    exact hsome
  · intro st bs hr inputs ids now hclean hids hlen k p d hk hpd hb
    obtain ⟨hwf, _, _, _⟩ := reachable_inv hr
    obtain ⟨pext, plen, prefs, pnd, hpos⟩ := processQDs_spec inputs bs hwf hclean
    obtain ⟨i, hi, hproc, hlook⟩ := hpos k p d hk hpd hb
    have hki : k < inputs.length := by
      rcases List.getElem?_eq_some.mp hk with ⟨hlt, _⟩
      exact hlt
    have hkids : k < ids.length := by rw [hlen]; exact hki
    have hkr : k < (processQDs bs inputs).1.length := by rw [plen]; exact hki
    have hidk : ids[k]? = some (ids[k]) := List.getElem?_eq_getElem hkids
    unfold addQuestionsOp
    dsimp only
    have hzip : (List.zipWith (fun idv q => mkQuestion idv now q) ids
        (processQDs bs inputs).1)[k]?
        = some (mkQuestion (ids[k]) now
            { p with imageUrl := some (mkRefI i) }) := by
      rw [List.getElem?_zipWith, hidk, hproc]
    have hzl : (List.zipWith (fun idv q => mkQuestion idv now q) ids
        (processQDs bs inputs).1).length > 0 := by
      rw [List.length_zipWith]
      omega
    refine ⟨mkQuestion (ids[k]) now { p with imageUrl := some (mkRefI i) },
      hzip, i, rfl, isRefS_mkRefI i, ?_, ?_⟩
    · rw [getImage_mkRefI]
      exact hlook
    · show mkQuestion (ids[k]) now { p with imageUrl := some (mkRefI i) }
        ∈ (if (List.zipWith (fun idv q => mkQuestion idv now q) ids
            (processQDs bs inputs).1).length > 0
           then appReducer st (.addQuestions (List.zipWith
            (fun idv q => mkQuestion idv now q) ids (processQDs bs inputs).1))
           else st).questions
      rw [if_pos hzl]
      exact List.mem_append_right _ (List.getElem?_mem hzip)

/-- Witness for C1: one `addQuestions` step from the empty app with a single
data-URI question.  The stored reference is live, and the created question
carries a blob reference resolving to the original data URI. -/
theorem c1_blob_liveness_witness :
    (getImage (addQuestionsOp { exams := [], questions := [], tags := [] } emptyBS
      [{ examId := "e1", type := "image", imageUrl := some "data:image/png;X",
         text := none, tags := [], difficulty := none, status := "new",
         notes := none, answer := none, lastReviewedAt := none }] ["a"] "t").1.2
      (mkRefI 0)).isSome = true ∧
    (∃ q', (addQuestionsOp { exams := [], questions := [], tags := [] } emptyBS
      [{ examId := "e1", type := "image", imageUrl := some "data:image/png;X",
         text := none, tags := [], difficulty := none, status := "new",
         notes := none, answer := none, lastReviewedAt := none }] ["a"] "t").2[0]?
        = some q' ∧
      ∃ i, q'.imageUrl = some (mkRefI i) ∧ isRefS (mkRefI i) = true ∧
        getImage (addQuestionsOp { exams := [], questions := [], tags := [] } emptyBS
          [{ examId := "e1", type := "image", imageUrl := some "data:image/png;X",
             text := none, tags := [], difficulty := none, status := "new",
             notes := none, answer := none, lastReviewedAt := none }] ["a"] "t").1.2
          (mkRefI i) = some "data:image/png;X" ∧
        q' ∈ (addQuestionsOp { exams := [], questions := [], tags := [] } emptyBS
          [{ examId := "e1", type := "image", imageUrl := some "data:image/png;X",
             text := none, tags := [], difficulty := none, status := "new",
             notes := none, answer := none, lastReviewedAt := none }] ["a"] "t").1.1.questions) := by
  have hclean : ∀ q ∈ [({ examId := "e1", type := "image", imageUrl := some "data:image/png;X", text := none, tags := [], difficulty := none, status := "new", notes := none, answer := none, lastReviewedAt := none } : QuestionData)], cleanQD q := by
    intro q hq
    rw [List.mem_singleton] at hq
    subst hq
    intro u hu
    have hurls : qdUrls { examId := "e1", type := "image", imageUrl := some "data:image/png;X", text := none, tags := [], difficulty := none, status := "new", notes := none, answer := none, lastReviewedAt := none } = ["data:image/png;X"] := rfl
    rw [hurls] at hu
    rw [List.mem_singleton] at hu
    subst hu
    decide
  constructor
  · exact c1_blob_liveness.1 _ _
      (Reachable.addQuestions _ _ _ Reachable.empty hclean (by decide) rfl)
      { id := "a", examId := "e1", type := "image", imageUrl := some (mkRefI 0),
        text := none, tags := [], difficulty := none, status := "new",
        notes := none, answer := none, createdAt := "t", updatedAt := "t",
        lastReviewedAt := none }
      (by decide) (mkRefI 0) (by decide) (by decide)
  · exact c1_blob_liveness.2 _ _ Reachable.empty _ _ _ hclean (by decide) rfl
      0 _ "data:image/png;X" rfl rfl (by decide)

end ReStudy
